import Mathlib

/-!
Verification of the ingestion/merge pipeline of `src/app/ingest.py`.

The embedding models a pandas `DataFrame` as a list of column names plus a
list of rows, where each row is a positional list of cells.  A cell is
`Option String`: `none` models a pandas missing value (`NaN` / `pd.NA`) and
`some s` models the string value `s` (the delimited-text loader reads every
value as a string, `dtype=str`).  Name-based access resolves a column name to
its first position, matching the unique-column discipline the pipeline's
column normalizer is meant to guarantee.
-/

/-- A cell of a record set: `none` models pandas NA/NaN. -/
abbrev Cell := Option String

/-- `str(v).strip() == ""`: the string is all whitespace. -/
def isBlank (s : String) : Bool := s.data.all (fun c => c.isWhitespace)

/-- The emptiness test used throughout `ingest.py`:
`pd.isna(v) or str(v).strip() == ""`. -/
def cellEmpty : Cell → Bool
  | none => true
  | some s => isBlank s

/-- `str(v)` as produced by pandas `astype(str)`: a missing value renders as
the string "nan". -/
def pyStr : Cell → String
  | none => "nan"
  | some s => s

/-- A record set (pandas `DataFrame`): ordered column names plus positional
rows. -/
structure DF where
  cols : List String
  rows : List (List Cell)
deriving Repr, DecidableEq

/-- pandas `df.empty`: true when either axis has length zero. -/
def DF.isEmpty (df : DF) : Bool := df.rows.isEmpty || df.cols.isEmpty

/-- `pd.DataFrame()`. -/
def emptyDF : DF := ⟨[], []⟩

/-- `None` argument or empty frame (`df is None or df.empty`). -/
def isMissing : Option DF → Bool
  | none => true
  | some df => df.isEmpty

/-- Value of column `c` in a row laid out by `cols` (first occurrence of the
name; a position past the end of the row reads as missing). -/
def colCell (cols : List String) (row : List Cell) (c : String) : Cell :=
  match cols.findIdx? (· == c) with
  | some j => (row[j]?).getD none
  | none => none

/-- Positional cell access; out-of-range reads are missing values. -/
def DF.cellAtPos (df : DF) (i j : Nat) : Cell :=
  ((df.rows[i]?).bind (fun r => r[j]?)).getD none

/-- Name-based cell access, `df.at[i, c]`. -/
def DF.cellByName (df : DF) (i : Nat) (c : String) : Cell :=
  colCell df.cols ((df.rows[i]?).getD []) c

/-- Point update of a list; out of range is a no-op. -/
def updateAt {α : Type _} (l : List α) (i : Nat) (f : α → α) : List α :=
  match l, i with
  | [], _ => []
  | a :: t, 0 => f a :: t
  | a :: t, n + 1 => a :: updateAt t n f

/-- `df.at[i, c] = v` with `c` resolved to position `j`. -/
def DF.setCell (df : DF) (i j : Nat) (v : Cell) : DF :=
  ⟨df.cols, updateAt df.rows i (fun r => updateAt r j (fun _ => v))⟩

/-- `df.dropna(how="all")`: drop rows whose every cell is missing. -/
def dropAllNa (df : DF) : DF :=
  ⟨df.cols, df.rows.filter (fun r => !(r.all (fun c => c.isNone)))⟩

/-- Reindex a row laid out by `cols` onto the column list `target`
(name alignment as done by `pd.concat`; absent names read as missing). -/
def reindexRow (cols : List String) (row : List Cell) (target : List String) : List Cell :=
  target.map (fun c => colCell cols row c)

/-- `pd.concat([a, b], ignore_index=True)`: the union of the column lists
(new names of `b` appended in order), rows of `a` padded with missing values
for the new columns, rows of `b` aligned by name. -/
def concatByName (a b : DF) : DF :=
  let extra := b.cols.filter (fun c => !a.cols.contains c)
  ⟨a.cols ++ extra,
    a.rows.map (fun r => r ++ List.replicate extra.length none)
      ++ b.rows.map (fun r => reindexRow b.cols r (a.cols ++ extra))⟩

/-- The merge counters computed (and logged) by `safe_upsert_merge`. -/
structure MergeStats where
  rows_added : Nat
  rows_updated : Nat
  rows_unchanged : Nat
deriving Repr, DecidableEq

/-- `merged[primary_key].dropna().astype(str)` collected into the set of
existing key strings. -/
def keySet (df : DF) (pk : String) : List String :=
  df.rows.filterMap (fun r => colCell df.cols r pk)

/-- Row indices selected by the mask
`merged[primary_key].astype(str) == key_str`. -/
def maskIdxs (df : DF) (pk key : String) : List Nat :=
  (List.range df.rows.length).filter (fun i => pyStr (df.cellByName i pk) == key)

/-- One write attempt of the inner fill loop: fill the cell at row `idx`,
column position `j`, with `v` only when it is currently empty. -/
def fillStep (j : Nat) (v : Cell) (acc : DF × Bool) (idx : Nat) : DF × Bool :=
  if cellEmpty (acc.1.cellAtPos idx j) then (acc.1.setCell idx j v, true) else acc

/-- Inner loop of a matched incoming row, one column: for each masked row
index fill the cell at column position `j` with `v` only when it is currently
empty; the Boolean records whether anything was written. -/
def fillColumn (df : DF) (idxs : List Nat) (j : Nat) (v : Cell) (updated : Bool) :
    DF × Bool :=
  idxs.foldl (fillStep j v) (df, updated)

/-- One column of a matched incoming row: skipped when it is the key, absent
from `merged`, or carries an empty incoming value; otherwise the masked rows
are filled. -/
def pmStep (incomingCols : List String) (row : List Cell) (pk : String)
    (idxs : List Nat) (acc : DF × Bool) (col : String) : DF × Bool :=
  if col == pk then acc
  else
    match acc.1.cols.findIdx? (· == col) with
    | none => acc
    | some j =>
      if cellEmpty (colCell incomingCols row col) then acc
      else fillColumn acc.1 idxs j (colCell incomingCols row col) acc.2

/-- Processing of one matched incoming row: the mask is computed once, then
for every incoming column other than the key that also exists in `merged`
and carries a non-empty value, empty masked cells are filled. -/
def processMatched (df : DF) (incomingCols : List String) (row : List Cell)
    (pk key : String) : DF × Bool :=
  incomingCols.foldl (pmStep incomingCols row pk (maskIdxs df pk key)) (df, false)

/-- State of the incoming-row loop of `safe_upsert_merge`. -/
structure MergeState where
  merged : DF
  newRows : List (List Cell)
  stats : MergeStats
deriving Repr

/-- One iteration of `for _, incoming_row in incoming_df.iterrows()`. -/
def mergeStep (pk : String) (incomingCols : List String) (keys : List String)
    (st : MergeState) (row : List Cell) : MergeState :=
  match colCell incomingCols row pk with
  | none => { st with newRows := st.newRows ++ [row] }
  | some s =>
    if isBlank s then { st with newRows := st.newRows ++ [row] }
    else if keys.contains s then
      { st with
        merged := (processMatched st.merged incomingCols row pk s).1,
        stats :=
          if (processMatched st.merged incomingCols row pk s).2 then
            { st.stats with rows_updated := st.stats.rows_updated + 1 }
          else { st.stats with rows_unchanged := st.stats.rows_unchanged + 1 } }
    else { st with newRows := st.newRows ++ [row] }

/-- The loop over incoming rows. -/
def mergeLoop (pk : String) (incomingCols : List String) (keys : List String)
    (rows : List (List Cell)) (init : MergeState) : MergeState :=
  rows.foldl (mergeStep pk incomingCols keys) init

/-- `safe_upsert_merge(existing_df, incoming_df, primary_key)` from
`src/app/ingest.py`.  Returns the merged frame together with the stats
counters the function computes (the source logs and prints them).  Missing
(`None`) or empty inputs short-circuit; otherwise all-missing incoming rows
are dropped, the merge falls back to append-only when the primary key is
absent on either side, and matched incoming rows fill only empty cells of
the rows sharing their key while unmatched rows are appended at the end. -/
def safe_upsert_merge (existing_df incoming_df : Option DF) (primary_key : String) :
    DF × MergeStats :=
  if isMissing existing_df then
    if isMissing incoming_df then (emptyDF, ⟨0, 0, 0⟩)
    else
      let inc := incoming_df.getD emptyDF
      (inc, ⟨inc.rows.length, 0, 0⟩)
  else if isMissing incoming_df then
    (existing_df.getD emptyDF, ⟨0, 0, 0⟩)
  else
    let existing := existing_df.getD emptyDF
    let incoming := dropAllNa (incoming_df.getD emptyDF)
    if !(existing.cols.contains primary_key) || !(incoming.cols.contains primary_key) then
      (concatByName existing incoming, ⟨incoming.rows.length, 0, 0⟩)
    else
      let keys := keySet existing primary_key
      let st := mergeLoop primary_key incoming.cols keys incoming.rows ⟨existing, [], ⟨0, 0, 0⟩⟩
      if st.newRows.isEmpty then (st.merged, st.stats)
      else
        (concatByName st.merged ⟨incoming.cols, st.newRows⟩,
          { st.stats with rows_added := st.newRows.length })

/-! ### Schema evolution (`evolve_schema`) -/

/-- `result[col] = pd.NA`: append a new column, every existing row gets a
missing value. -/
def addNACol (df : DF) (c : String) : DF :=
  ⟨df.cols ++ [c], df.rows.map (fun r => r ++ [none])⟩

/-- Lexicographic comparison of character lists (Python string order). -/
def charListLe : List Char → List Char → Bool
  | [], _ => true
  | _ :: _, [] => false
  | a :: s, b :: t =>
    if a < b then true
    else if a = b then charListLe s t
    else false

/-- Python `<=` on strings: lexicographic by code point. -/
def strLe (a b : String) : Bool := charListLe a.data b.data

/-- Insertion into a sorted list of strings. -/
def insertSorted (s : String) : List String → List String
  | [] => [s]
  | x :: t => if strLe s x then s :: x :: t else x :: insertSorted s t

/-- Python `sorted` on strings (insertion sort). -/
def sortStrings : List String → List String
  | [] => []
  | x :: t => insertSorted x (sortStrings t)

/-- `sorted(set(incoming_cols) - set(master_cols))`. -/
def newColumns (masterCols incomingCols : List String) : List String :=
  sortStrings ((incomingCols.filter (fun c => !masterCols.contains c)).dedup)

/-- `evolve_schema(master_df, incoming_df)` from `src/app/ingest.py`: missing
or empty inputs short-circuit; otherwise the columns of the incoming frame
absent from the master are appended (sorted), backfilled with missing values
for every pre-existing master row, and reported. -/
def evolve_schema (master_df incoming_df : Option DF) : DF × List String :=
  if isMissing master_df then
    if isMissing incoming_df then (emptyDF, [])
    else (master_df.getD emptyDF, (incoming_df.getD emptyDF).cols)
  else if isMissing incoming_df then
    (master_df.getD emptyDF, [])
  else
    let master := master_df.getD emptyDF
    let incoming := incoming_df.getD emptyDF
    let new_cols := newColumns master.cols incoming.cols
    if new_cols.isEmpty then (master, [])
    else (new_cols.foldl addNACol master, new_cols)

/-! ### Column normalization (`normalize_columns`)

The ASCII fragment of the Python string operations is modelled on the
character list of the string. -/

/-- Python `str.strip()` whitespace characters. -/
def pyIsSpace (c : Char) : Bool :=
  c == ' ' || c == '\t' || c == '\n' || c == '\r' || c == '\x0b' || c == '\x0c'

/-- `str.strip()`. -/
def pyStrip (l : List Char) : List Char :=
  ((l.dropWhile pyIsSpace).reverse.dropWhile pyIsSpace).reverse

/-- A `\w` character of `re.sub(r"[^\w]", "", ...)`. -/
def isWordChar (c : Char) : Bool := c.isAlphanum || c == '_'

/-- `re.sub(r"_+", "_", ...)`: collapse runs of underscores (an underscore
is kept only when the collapsed tail does not already start with one). -/
def collapseUnderscores : List Char → List Char
  | [] => []
  | c :: t =>
    if c == '_' then
      if (collapseUnderscores t).head? == some '_' then collapseUnderscores t
      else '_' :: collapseUnderscores t
    else c :: collapseUnderscores t

/-- `str.strip("_")`. -/
def stripEdgeUnderscores (l : List Char) : List Char :=
  ((l.dropWhile (· == '_')).reverse.dropWhile (· == '_')).reverse

/-- The character pipeline of `normalize_columns` applied to one raw header:
strip, lowercase, spaces and hyphens to underscores, drop `:()[]`, drop
remaining non-word characters, collapse underscore runs, strip edge
underscores. -/
def cleanChars (s : List Char) : List Char :=
  let s := pyStrip s
  let s := s.map Char.toLower
  let s := s.map (fun c => if c == ' ' then '_' else c)
  let s := s.map (fun c => if c == '-' then '_' else c)
  let s := s.filter (fun c => !(c == ':'))
  let s := s.filter (fun c => !(c == '('))
  let s := s.filter (fun c => !(c == ')'))
  let s := s.filter (fun c => !(c == '['))
  let s := s.filter (fun c => !(c == ']'))
  let s := s.filter isWordChar
  let s := collapseUnderscores s
  stripEdgeUnderscores s

/-- Decimal digit character. -/
def digitChar : Nat → Char
  | 0 => '0' | 1 => '1' | 2 => '2' | 3 => '3' | 4 => '4'
  | 5 => '5' | 6 => '6' | 7 => '7' | 8 => '8' | _ => '9'

/-- Decimal digits, most significant first, with explicit fuel (the fuel is
always sufficient when it exceeds the number). -/
def natDigitsGo : Nat → Nat → List Char
  | 0, _ => []
  | fuel + 1, n =>
    if n < 10 then [digitChar n]
    else natDigitsGo fuel (n / 10) ++ [digitChar (n % 10)]

/-- Decimal digits of a natural number, most significant first. -/
def natDigits (n : Nat) : List Char := natDigitsGo (n + 1) n

/-- Decimal rendering of a natural number (Python f-string interpolation). -/
def natToStr (n : Nat) : String := String.mk (natDigits n)

/-- Does the cleaned name start with a digit (`col_name[0].isdigit()`)? -/
def headIsDigit (s : String) : Bool :=
  match s.data with
  | [] => false
  | c :: _ => c.isDigit

/-- Cleaning of the raw header value at position `i` (0-based), following
`normalize_columns`: missing or blank values synthesize `column_<i+1>`, an
empty cleaning result falls back to the same, and a leading digit is
prefixed with `col_`. -/
def cleanColumn (i : Nat) (col : Cell) : String :=
  match col with
  | none => "column_" ++ natToStr (i + 1)
  | some s =>
    if isBlank s then "column_" ++ natToStr (i + 1)
    else if (cleanChars s.data).isEmpty then
      (if headIsDigit ("column_" ++ natToStr (i + 1)) then
        "col_" ++ ("column_" ++ natToStr (i + 1))
      else "column_" ++ natToStr (i + 1))
    else if headIsDigit (String.mk (cleanChars s.data)) then
      "col_" ++ String.mk (cleanChars s.data)
    else String.mk (cleanChars s.data)

/-- Clean every raw header value, threading the enumeration index. -/
def cleanAll : Nat → List Cell → List String
  | _, [] => []
  | i, c :: t => cleanColumn i c :: cleanAll (i + 1) t

/-- `seen` dictionary lookup. -/
def lookupCount : List (String × Nat) → String → Option Nat
  | [], _ => none
  | (a, k) :: t, s => if a == s then some k else lookupCount t s

/-- `seen[name] = n`. -/
def setCount : List (String × Nat) → String → Nat → List (String × Nat)
  | [], _, _ => []
  | (a, k) :: t, s, n => if a == s then (a, n) :: t else (a, k) :: setCount t s n

/-- One step of the duplicate-suffix loop: a name already seen gets the
suffix `_<count>` after incrementing its count; a fresh name is recorded
with count 0. -/
def dedupStep (acc : List String × List (String × Nat)) (name : String) :
    List String × List (String × Nat) :=
  match lookupCount acc.2 name with
  | some k => (acc.1 ++ [name ++ "_" ++ natToStr (k + 1)], setCount acc.2 name (k + 1))
  | none => (acc.1 ++ [name], acc.2 ++ [(name, 0)])

/-- The duplicate-disambiguation pass of `normalize_columns`. -/
def dedupNames (names : List String) : List String :=
  (names.foldl dedupStep ([], [])).1

/-- The column-name computation of `normalize_columns(df)` from
`src/app/ingest.py`: clean every raw header value, then disambiguate
duplicates with numeric suffixes.  (The surrounding function only copies the
frame and installs these names.) -/
def normalize_columns (cols : List Cell) : List String :=
  dedupNames (cleanAll 0 cols)

/-! ### Encoding cascade (`read_with_encoding_cascade`)

The file system is abstracted as a function from encoding name to the
outcome of `open(file_path, encoding=encoding).read()`.  The existence
pre-check of the source is outside the claim; the `errors` list the source
accumulates feeds only the log line, not the raised exception. -/

/-- Outcome of one decoding attempt. -/
inductive ReadResult where
  | ok (text : String)
  | unicodeError (msg : String)
  | permissionError
  | otherError (msg : String)
deriving Repr, DecidableEq

/-- What `read_with_encoding_cascade` can raise. -/
inductive ReadFailure where
  | permission
  | decodeFailure (message : String)
deriving Repr, DecidableEq

/-- The fixed encoding order. -/
def ENCODING_CASCADE : List String := ["utf-8", "utf-8-sig", "cp1252", "latin1"]

/-- `", ".join(...)`. -/
def joinComma : List String → String
  | [] => ""
  | [x] => x
  | x :: y :: t => x ++ ", " ++ joinComma (y :: t)

/-- An attempt that neither decoded nor raised a permission error. -/
def decodeFails : ReadResult → Bool
  | .unicodeError _ => true
  | .otherError _ => true
  | _ => false

/-- The loop of `read_with_encoding_cascade`: first successful decode wins,
a permission error propagates immediately, and exhaustion raises a single
`UnicodeDecodeError` whose reason names the file and the cascade. -/
def cascadeLoop (file : String → ReadResult) (file_path : String) :
    List String → Except ReadFailure (String × String)
  | [] =>
    .error (.decodeFailure
      ("All encoding attempts failed for " ++ file_path ++ ". Tried: "
        ++ joinComma ENCODING_CASCADE))
  | enc :: rest =>
    match file enc with
    | .ok text => .ok (text, enc)
    | .unicodeError _ => cascadeLoop file file_path rest
    | .permissionError => .error .permission
    | .otherError _ => cascadeLoop file file_path rest

/-- `read_with_encoding_cascade(file_path)` from `src/app/ingest.py`. -/
def read_with_encoding_cascade (file : String → ReadResult) (file_path : String) :
    Except ReadFailure (String × String) :=
  cascadeLoop file file_path ENCODING_CASCADE

/-- Does `needle` start `hay`? -/
def listStartsWith : List Char → List Char → Bool
  | [], _ => true
  | _ :: _, [] => false
  | a :: t, b :: u => a == b && listStartsWith t u

/-- Does `needle` occur inside `hay`? -/
def listOccurs (needle : List Char) : List Char → Bool
  | [] => needle.isEmpty
  | c :: t => listStartsWith needle (c :: t) || listOccurs needle t

/-- Substring containment on strings. -/
def strOccurs (hay needle : String) : Bool := listOccurs needle.data hay.data

/-! ### The persisted-state step of `ingest_file` (steps 5-9)

`ingest_file` re-reads both persisted CSVs, evolves the master schema,
merges into the working dataset, merges into the master and tops it up with
any working column it still lacks, then persists both.  The state below is
the pair of persisted frames; a run whose loaded frame is empty aborts
before any write.  I/O failures (unreadable or unwritable CSVs) are outside
this model. -/

/-- The two persisted artifacts. -/
structure PipelineState where
  working : Option DF
  master : Option DF
deriving Repr

/-- The merge primary key. -/
def PRIMARY_KEY : String := "company_name"

/-- `for col in merged_df.columns: if col not in master_merged.columns:
master_merged[col] = pd.NA` -/
def addMissingStep (acc : DF) (col : String) : DF :=
  if acc.cols.contains col then acc else addNACol acc col

/-- Top-up of the master with the working dataset's columns. -/
def addMissingCols (df : DF) (cols : List String) : DF :=
  cols.foldl addMissingStep df

/-- One successful ingestion run over the persisted state, given the loaded
and normalized frame `df` (steps 5-9 of `ingest_file`): a run with no data
aborts before writing; with no usable master both files receive the merge
result; otherwise the master is evolved with the new columns, merged, topped
up with the working dataset's columns, and both frames persisted.  (The
source tests `master_df is not None and not master_df.empty` again after
schema evolution; evolving a non-empty master preserves its rows, so the
branch taken is the same.) -/
def ingest_step (st : PipelineState) (df : DF) : PipelineState :=
  if df.isEmpty then st
  else if isMissing st.master then
    { working := some (safe_upsert_merge st.working (some df) PRIMARY_KEY).1,
      master := some (safe_upsert_merge st.working (some df) PRIMARY_KEY).1 }
  else
    { working := some (safe_upsert_merge st.working (some df) PRIMARY_KEY).1,
      master := some (addMissingCols
        (safe_upsert_merge (some (evolve_schema st.master (some df)).1)
          (some df) PRIMARY_KEY).1
        (safe_upsert_merge st.working (some df) PRIMARY_KEY).1.cols) }

/-- A sequence of ingestion runs starting from no persisted artifacts. -/
def runAll (dfs : List DF) : PipelineState :=
  dfs.foldl ingest_step ⟨none, none⟩

/-- Column list of an optional frame. -/
def optCols : Option DF → List String
  | none => []
  | some df => df.cols

/-! ### Object-level model of `safe_upsert_merge` (argument mutation)

A heap of `DataFrame` objects with references as list indices.  Every
in-place update in the source (`merged.at[idx, col] = ...`) targets the
fresh object created by `existing_df.copy()` (or, on the other paths, the
fresh results of `.copy()` / `pd.concat`); `incoming_df = incoming_df.
dropna(...)` only rebinds the local name.  The function therefore computes
the value of the result object with the pure model above, allocates it, and
never writes through either argument reference. -/

/-- Dereference an optional `DataFrame` reference (`None` stays `None`). -/
def heapGet (h : List DF) (r : Option Nat) : Option DF :=
  match r with
  | none => none
  | some i => h[i]?

/-- `safe_upsert_merge` at the object level: read both argument references,
compute the merged value, allocate it as a new object. -/
def safe_upsert_merge_heap (h : List DF) (e i : Option Nat) (pk : String) :
    List DF × Nat :=
  (h ++ [(safe_upsert_merge (heapGet h e) (heapGet h i) pk).1], h.length)

/-! ### Properties used by the verification -/

/-- Row length helper. -/
def DF.rowLen (df : DF) (i : Nat) : Nat := ((df.rows[i]?).getD []).length

/-- `b` preserves every non-empty cell of `a` (positionally). -/
def Preserves (a b : DF) : Prop :=
  ∀ i j, cellEmpty (a.cellAtPos i j) = false → b.cellAtPos i j = a.cellAtPos i j

/-- The reachable-state invariant of the pipeline: either nothing has been
persisted yet, or the working dataset is a non-empty frame whose column set
the master archive covers. -/
def PipelineInv (st : PipelineState) : Prop :=
  st.working = none ∨
    ∃ w m, st.working = some w ∧ st.master = some m ∧ w.isEmpty = false
      ∧ ∀ c ∈ w.cols, c ∈ m.cols

/-- A character that can appear in a normalized column name: lowercase
letter, digit, or underscore. -/
def goodChar (c : Char) : Bool := c.isLower || c.isDigit || c == '_'

/-- No two adjacent underscores. -/
def noAdjUnderscores (l : List Char) : Prop :=
  List.Chain' (fun a b => ¬(a = '_' ∧ b = '_')) l

/-- Executable check for `noAdjUnderscores`. -/
def noAdjB : List Char → Bool
  | [] => true
  | [_] => true
  | a :: b :: t => !(a == '_' && b == '_') && noAdjB (b :: t)

/-- Shape of every name produced by `normalize_columns`: non-empty, made of
good characters, not starting or ending with an underscore, no underscore
run, and not starting with a digit. -/
structure GoodName (s : String) : Prop where
  ne : s.data ≠ []
  good : ∀ c ∈ s.data, goodChar c = true
  headNotUnd : ∀ c, s.data.head? = some c → c ≠ '_'
  lastNotUnd : ∀ c, s.data.getLast? = some c → c ≠ '_'
  chain : noAdjUnderscores s.data
  headNotDigit : ∀ c, s.data.head? = some c → c.isDigit = false

/-! ## Lemmas -/

/-! ### Generic list and fold lemmas -/

theorem updateAt_length {α : Type _} (l : List α) (i : Nat) (f : α → α) :
    (updateAt l i f).length = l.length := by
  induction l generalizing i with
  | nil => rfl
  | cons a t ih =>
    cases i with
    | zero => rfl
    | succ n => simpa [updateAt] using ih n

theorem updateAt_getElem? {α : Type _} (l : List α) (i j : Nat) (f : α → α) :
    (updateAt l i f)[j]? = if j = i then (l[j]?).map f else l[j]? := by
  induction l generalizing i j with
  | nil => simp [updateAt]
  | cons a t ih =>
    cases i with
    | zero =>
      cases j with
      | zero => simp [updateAt]
      | succ m => simp [updateAt]
    | succ n =>
      cases j with
      | zero => simp [updateAt]
      | succ m => simpa [updateAt] using ih n m

theorem foldl_invariant {σ β : Type _} (P : σ → Prop) (step : σ → β → σ) (l : List β)
    (h : ∀ s b, b ∈ l → P s → P (step s b)) (s : σ) (hs : P s) :
    P (l.foldl step s) := by
  induction l generalizing s with
  | nil => exact hs
  | cons x t ih =>
    exact ih (fun s b hb => h s b (List.mem_cons_of_mem _ hb))
      (step s x) (h s x (List.mem_cons_self _ _) hs)

theorem exists_first_split {α : Type _} (p : α → Prop) [DecidablePred p] {l : List α}
    {x : α} (hx : x ∈ l) (hpx : p x) :
    ∃ l₁ y l₂, l = l₁ ++ y :: l₂ ∧ p y ∧ ∀ z ∈ l₁, ¬p z := by
  induction l with
  | nil => cases hx
  | cons a t ih =>
    by_cases hpa : p a
    · exact ⟨[], a, t, rfl, hpa, by simp⟩
    · have hxt : x ∈ t := by
        rcases List.mem_cons.1 hx with rfl | h
        · exact absurd hpx hpa
        · exact h
      obtain ⟨l₁, y, l₂, rfl, hy, hall⟩ := ih hxt
      exact ⟨a :: l₁, y, l₂, rfl, hy, by
        intro z hz
        rcases List.mem_cons.1 hz with rfl | h
        · exact hpa
        · exact hall z h⟩

theorem getElem?_append_left' {α : Type _} {l₁ l₂ : List α} {n : Nat}
    (h : n < l₁.length) : (l₁ ++ l₂)[n]? = l₁[n]? := by
  rw [List.getElem?_append]
  simp [h]

theorem findIdx?_mem_of_contains {l : List String} {c : String} (h : l.contains c) :
    ∃ j, l.findIdx? (· == c) = some j := by
  have : (l.findIdx? (· == c)).isSome = true := by
    rw [List.findIdx?_isSome, List.any_eq_true]
    exact ⟨c, List.elem_iff.1 h, by simp⟩
  exact Option.isSome_iff_exists.1 this

theorem findIdx?_getElem {l : List String} {c : String} {j : Nat}
    (h : l.findIdx? (· == c) = some j) : j < l.length ∧ l[j]? = some c := by
  obtain ⟨hlt, hp, _⟩ := List.findIdx?_eq_some_iff_getElem.1 h
  refine ⟨hlt, ?_⟩
  rw [List.getElem?_eq_getElem hlt]
  simpa using hp

theorem findIdx?_append_left {l₁ l₂ : List String} {c : String} {j : Nat}
    (h : l₁.findIdx? (· == c) = some j) : (l₁ ++ l₂).findIdx? (· == c) = some j := by
  obtain ⟨hlt, hp, hfirst⟩ := List.findIdx?_eq_some_iff_getElem.1 h
  refine List.findIdx?_eq_some_iff_getElem.2 ?_
  refine ⟨by simpa using Nat.lt_of_lt_of_le hlt (by simp), ?_, ?_⟩
  · rw [List.getElem_append_left hlt]
    exact hp
  · intro k hk
    have hk' : k < l₁.length := Nat.lt_trans hk hlt
    rw [List.getElem_append_left hk']
    exact hfirst k hk

/-! ### Cell access lemmas -/

theorem cellByName_eq_cellAtPos {df : DF} {c : String} {j : Nat} (i : Nat)
    (h : df.cols.findIdx? (· == c) = some j) :
    df.cellByName i c = df.cellAtPos i j := by
  unfold DF.cellByName DF.cellAtPos colCell
  rw [h]
  cases hr : df.rows[i]? with
  | none => simp
  | some r => simp

theorem cellByName_none {df : DF} {c : String} (i : Nat)
    (h : df.cols.findIdx? (· == c) = none) : df.cellByName i c = none := by
  unfold DF.cellByName colCell
  rw [h]

theorem cellAtPos_of_lt {df : DF} {i : Nat} (hi : i < df.rows.length) (j : Nat) :
    df.cellAtPos i j = (((df.rows[i]?).getD [])[j]?).getD none := by
  unfold DF.cellAtPos
  rw [List.getElem?_eq_getElem hi]
  simp

theorem cellAtPos_out_of_range {df : DF} {i : Nat} (hi : ¬ i < df.rows.length) (j : Nat) :
    df.cellAtPos i j = none := by
  unfold DF.cellAtPos
  rw [List.getElem?_eq_none (by omega)]
  rfl

/-! ### setCell lemmas -/

theorem setCell_cols (df : DF) (i j : Nat) (v : Cell) :
    (df.setCell i j v).cols = df.cols := rfl

theorem setCell_rows_length (df : DF) (i j : Nat) (v : Cell) :
    (df.setCell i j v).rows.length = df.rows.length := by
  unfold DF.setCell
  simp [updateAt_length]

theorem setCell_rowLen (df : DF) (i j i' : Nat) (v : Cell) :
    (df.setCell i j v).rowLen i' = df.rowLen i' := by
  unfold DF.setCell DF.rowLen
  rw [updateAt_getElem?]
  by_cases h : i' = i
  · subst h
    cases hr : df.rows[i']? with
    | none => simp
    | some r => simp [updateAt_length]
  · simp [h]

theorem setCell_cellAtPos_ne (df : DF) {i j i' j' : Nat} (v : Cell)
    (h : i' ≠ i ∨ j' ≠ j) :
    (df.setCell i j v).cellAtPos i' j' = df.cellAtPos i' j' := by
  unfold DF.setCell DF.cellAtPos
  simp only
  rw [updateAt_getElem?]
  by_cases hii : i' = i
  · have hjj : j' ≠ j := h.resolve_left (by simp [hii])
    subst hii
    cases hr : df.rows[i']? with
    | none => simp
    | some r => simp [updateAt_getElem?, hjj]
  · simp [hii]

theorem setCell_cellAtPos_self (df : DF) {i j : Nat} (v : Cell)
    (hi : i < df.rows.length) (hj : j < df.rowLen i) :
    (df.setCell i j v).cellAtPos i j = v := by
  unfold DF.setCell DF.cellAtPos
  simp only
  rw [updateAt_getElem?, if_pos rfl]
  cases hr : df.rows[i]? with
  | none =>
    rw [List.getElem?_eq_none_iff] at hr
    omega
  | some r =>
    unfold DF.rowLen at hj
    rw [hr] at hj
    simp only [Option.getD_some] at hj
    simp [updateAt_getElem?, List.getElem?_eq_getElem hj]

/-! ### The no-overwrite relation -/

theorem Preserves.refl (a : DF) : Preserves a a := fun _ _ _ => rfl

theorem Preserves.trans {a b c : DF} (h1 : Preserves a b) (h2 : Preserves b c) :
    Preserves a c := by
  intro i j h
  have e := h1 i j h
  have h2' := h2 i j (by rw [e]; exact h)
  rw [h2', e]

theorem foldl_preserves {σ β : Type _} (proj : σ → DF) (step : σ → β → σ)
    (h : ∀ s b, Preserves (proj s) (proj (step s b))) (l : List β) (s : σ) :
    Preserves (proj s) (proj (l.foldl step s)) := by
  induction l generalizing s with
  | nil => exact Preserves.refl _
  | cons x t ih => exact (h s x).trans (ih (step s x))

/-! ### fillStep and fillColumn lemmas -/

theorem fillStep_cols (j : Nat) (v : Cell) (acc : DF × Bool) (idx : Nat) :
    (fillStep j v acc idx).1.cols = acc.1.cols := by
  unfold fillStep
  split <;> rfl

theorem fillStep_rows_length (j : Nat) (v : Cell) (acc : DF × Bool) (idx : Nat) :
    (fillStep j v acc idx).1.rows.length = acc.1.rows.length := by
  unfold fillStep
  split
  · exact setCell_rows_length ..
  · rfl

theorem fillStep_rowLen (j : Nat) (v : Cell) (acc : DF × Bool) (idx i' : Nat) :
    (fillStep j v acc idx).1.rowLen i' = acc.1.rowLen i' := by
  unfold fillStep
  split
  · exact setCell_rowLen ..
  · rfl

theorem fillStep_preserves (j : Nat) (v : Cell) (acc : DF × Bool) (idx : Nat) :
    Preserves acc.1 (fillStep j v acc idx).1 := by
  intro i' j' hne
  unfold fillStep
  split
  · next hempty =>
    by_cases hij : i' = idx ∧ j' = j
    · rw [hij.1, hij.2] at hne
      rw [hne] at hempty
      cases hempty
    · rcases Decidable.not_and_iff_or_not.1 hij with h | h
      · exact setCell_cellAtPos_ne _ _ (Or.inl h)
      · exact setCell_cellAtPos_ne _ _ (Or.inr h)
  · rfl

theorem fillStep_other_col (j : Nat) (v : Cell) (acc : DF × Bool) (idx : Nat)
    {j' : Nat} (h : j' ≠ j) (i' : Nat) :
    (fillStep j v acc idx).1.cellAtPos i' j' = acc.1.cellAtPos i' j' := by
  unfold fillStep
  split
  · exact setCell_cellAtPos_ne _ _ (Or.inr h)
  · rfl

theorem fillStep_other_row (j : Nat) (v : Cell) (acc : DF × Bool) (idx : Nat)
    {i' : Nat} (h : i' ≠ idx) (j' : Nat) :
    (fillStep j v acc idx).1.cellAtPos i' j' = acc.1.cellAtPos i' j' := by
  unfold fillStep
  split
  · exact setCell_cellAtPos_ne _ _ (Or.inl h)
  · rfl

theorem fillColumn_preserves (df : DF) (idxs : List Nat) (j : Nat) (v : Cell)
    (u : Bool) : Preserves df (fillColumn df idxs j v u).1 :=
  foldl_preserves Prod.fst (fillStep j v) (fun s b => fillStep_preserves j v s b) idxs (df, u)

theorem fillColumn_cols (df : DF) (idxs : List Nat) (j : Nat) (v : Cell) (u : Bool) :
    (fillColumn df idxs j v u).1.cols = df.cols :=
  foldl_invariant (fun acc => acc.1.cols = df.cols) (fillStep j v) idxs
    (fun s b _ hs => (fillStep_cols j v s b).trans hs) (df, u) rfl

theorem fillColumn_rows_length (df : DF) (idxs : List Nat) (j : Nat) (v : Cell)
    (u : Bool) : (fillColumn df idxs j v u).1.rows.length = df.rows.length :=
  foldl_invariant (fun acc => acc.1.rows.length = df.rows.length) (fillStep j v) idxs
    (fun s b _ hs => (fillStep_rows_length j v s b).trans hs) (df, u) rfl

theorem fillColumn_rowLen (df : DF) (idxs : List Nat) (j : Nat) (v : Cell)
    (u : Bool) (i' : Nat) : (fillColumn df idxs j v u).1.rowLen i' = df.rowLen i' :=
  foldl_invariant (fun acc => acc.1.rowLen i' = df.rowLen i') (fillStep j v) idxs
    (fun s b _ hs => (fillStep_rowLen j v s b i').trans hs) (df, u) rfl

theorem fillColumn_other_col (df : DF) (idxs : List Nat) (j : Nat) (v : Cell)
    (u : Bool) {j' : Nat} (h : j' ≠ j) (i' : Nat) :
    (fillColumn df idxs j v u).1.cellAtPos i' j' = df.cellAtPos i' j' :=
  foldl_invariant (fun acc => acc.1.cellAtPos i' j' = df.cellAtPos i' j')
    (fillStep j v) idxs
    (fun s b _ hs => (fillStep_other_col j v s b h i').trans hs) (df, u) rfl

theorem fillColumn_untouched_row (df : DF) (idxs : List Nat) (j : Nat) (v : Cell)
    (u : Bool) {i' : Nat} (h : i' ∉ idxs) (j' : Nat) :
    (fillColumn df idxs j v u).1.cellAtPos i' j' = df.cellAtPos i' j' :=
  foldl_invariant (fun acc => acc.1.cellAtPos i' j' = df.cellAtPos i' j')
    (fillStep j v) idxs
    (fun s b hb hs =>
      (fillStep_other_row j v s b (fun hEq => h (by rw [hEq]; exact hb)) j').trans hs)
    (df, u) rfl

theorem fillColumn_fills (df : DF) (idxs : List Nat) (j : Nat) (v : Cell) (u : Bool)
    {i : Nat} (hmem : i ∈ idxs) (hempty : cellEmpty (df.cellAtPos i j) = true)
    (hi : i < df.rows.length) (hj : j < df.rowLen i) (hv : cellEmpty v = false) :
    (fillColumn df idxs j v u).1.cellAtPos i j = v := by
  induction idxs generalizing df u with
  | nil => cases hmem
  | cons a t ih =>
    have hstep : fillColumn df (a :: t) j v u
        = fillColumn (fillStep j v (df, u) a).1 t j v (fillStep j v (df, u) a).2 := rfl
    by_cases hia : i = a
    · subst hia
      have h1 : (fillStep j v (df, u) i).1 = df.setCell i j v := by
        unfold fillStep
        rw [if_pos hempty]
      have hcell : (fillStep j v (df, u) i).1.cellAtPos i j = v := by
        rw [h1]
        exact setCell_cellAtPos_self df v hi hj
      rw [hstep]
      have := fillColumn_preserves (fillStep j v (df, u) i).1 t j v (fillStep j v (df, u) i).2
      rw [this i j (by rw [hcell]; exact hv), hcell]
    · have ht : i ∈ t := by
        rcases List.mem_cons.1 hmem with h | h
        · exact absurd h hia
        · exact h
      rw [hstep]
      refine ih (fillStep j v (df, u) a).1 (fillStep j v (df, u) a).2 ht ?_ ?_ ?_
      · rw [fillStep_other_row j v (df, u) a hia j]
        exact hempty
      · rw [fillStep_rows_length]
        exact hi
      · rw [fillStep_rowLen]
        exact hj

/-! ### processMatched lemmas -/

theorem pmStep_preserves (incomingCols : List String) (row : List Cell) (pk : String)
    (idxs : List Nat) (acc : DF × Bool) (col : String) :
    Preserves acc.1 (pmStep incomingCols row pk idxs acc col).1 := by
  unfold pmStep
  split
  · exact Preserves.refl _
  · split
    · exact Preserves.refl _
    · split
      · exact Preserves.refl _
      · exact fillColumn_preserves _ _ _ _ _

theorem pmStep_cols (incomingCols : List String) (row : List Cell) (pk : String)
    (idxs : List Nat) (acc : DF × Bool) (col : String) :
    (pmStep incomingCols row pk idxs acc col).1.cols = acc.1.cols := by
  unfold pmStep
  split
  · rfl
  · split
    · rfl
    · split
      · rfl
      · exact fillColumn_cols ..

theorem pmStep_rows_length (incomingCols : List String) (row : List Cell) (pk : String)
    (idxs : List Nat) (acc : DF × Bool) (col : String) :
    (pmStep incomingCols row pk idxs acc col).1.rows.length = acc.1.rows.length := by
  unfold pmStep
  split
  · rfl
  · split
    · rfl
    · split
      · rfl
      · exact fillColumn_rows_length ..

theorem pmStep_rowLen (incomingCols : List String) (row : List Cell) (pk : String)
    (idxs : List Nat) (acc : DF × Bool) (col : String) (i' : Nat) :
    (pmStep incomingCols row pk idxs acc col).1.rowLen i' = acc.1.rowLen i' := by
  unfold pmStep
  split
  · rfl
  · split
    · rfl
    · split
      · rfl
      · exact fillColumn_rowLen ..

theorem pmStep_untouched_row (incomingCols : List String) (row : List Cell)
    (pk : String) (idxs : List Nat) (acc : DF × Bool) (col : String)
    {i' : Nat} (h : i' ∉ idxs) (j' : Nat) :
    (pmStep incomingCols row pk idxs acc col).1.cellAtPos i' j'
      = acc.1.cellAtPos i' j' := by
  unfold pmStep
  split
  · rfl
  · split
    · rfl
    · split
      · rfl
      · exact fillColumn_untouched_row _ _ _ _ _ h j'

theorem processMatched_preserves (df : DF) (incomingCols : List String)
    (row : List Cell) (pk key : String) :
    Preserves df (processMatched df incomingCols row pk key).1 :=
  foldl_preserves Prod.fst (pmStep incomingCols row pk (maskIdxs df pk key))
    (fun s b => pmStep_preserves _ _ _ _ s b) incomingCols (df, false)

theorem processMatched_cols (df : DF) (incomingCols : List String)
    (row : List Cell) (pk key : String) :
    (processMatched df incomingCols row pk key).1.cols = df.cols :=
  foldl_invariant (fun acc => acc.1.cols = df.cols) _ incomingCols
    (fun s b _ hs => (pmStep_cols _ _ _ _ s b).trans hs) (df, false) rfl

theorem processMatched_rows_length (df : DF) (incomingCols : List String)
    (row : List Cell) (pk key : String) :
    (processMatched df incomingCols row pk key).1.rows.length = df.rows.length :=
  foldl_invariant (fun acc => acc.1.rows.length = df.rows.length) _ incomingCols
    (fun s b _ hs => (pmStep_rows_length _ _ _ _ s b).trans hs) (df, false) rfl

theorem processMatched_rowLen (df : DF) (incomingCols : List String)
    (row : List Cell) (pk key : String) (i' : Nat) :
    (processMatched df incomingCols row pk key).1.rowLen i' = df.rowLen i' :=
  foldl_invariant (fun acc => acc.1.rowLen i' = df.rowLen i') _ incomingCols
    (fun s b _ hs => (pmStep_rowLen _ _ _ _ s b i').trans hs) (df, false) rfl

theorem processMatched_untouched_row (df : DF) (incomingCols : List String)
    (row : List Cell) (pk key : String) {i' : Nat}
    (h : i' ∉ maskIdxs df pk key) (j' : Nat) :
    (processMatched df incomingCols row pk key).1.cellAtPos i' j'
      = df.cellAtPos i' j' :=
  foldl_invariant (fun acc => acc.1.cellAtPos i' j' = df.cellAtPos i' j') _ incomingCols
    (fun s b _ hs => (pmStep_untouched_row _ _ _ _ s b h j').trans hs) (df, false) rfl

theorem processMatched_pk_col (df : DF) (incomingCols : List String)
    (row : List Cell) (pk key : String) {pkIdx : Nat}
    (hpk : df.cols.findIdx? (· == pk) = some pkIdx) (i' : Nat) :
    (processMatched df incomingCols row pk key).1.cellAtPos i' pkIdx
      = df.cellAtPos i' pkIdx := by
  have := foldl_invariant
    (fun acc : DF × Bool =>
      acc.1.cols = df.cols ∧ acc.1.cellAtPos i' pkIdx = df.cellAtPos i' pkIdx)
    (pmStep incomingCols row pk (maskIdxs df pk key)) incomingCols
    (fun s col _ hs => by
      refine ⟨(pmStep_cols _ _ _ _ s col).trans hs.1, ?_⟩
      unfold pmStep
      split
      · exact hs.2
      · next hcolpk =>
        split
        · exact hs.2
        · next jc hjc =>
          split
          · exact hs.2
          · have hjcdf : df.cols.findIdx? (· == col) = some jc := by
              rw [← hs.1]
              exact hjc
            have h1 := (findIdx?_getElem hjcdf).2
            have h2 := (findIdx?_getElem hpk).2
            have hne : pkIdx ≠ jc := by
              intro hEq
              rw [hEq, h1] at h2
              have : col = pk := by simpa using h2
              rw [this] at hcolpk
              simp at hcolpk
            exact (fillColumn_other_col _ _ _ _ _ hne i').trans hs.2)
    (df, false) ⟨rfl, rfl⟩
  exact this.2

/-! ### mergeStep and concat lemmas -/

theorem mergeStep_merged_cases (pk : String) (incomingCols : List String)
    (keys : List String) (st : MergeState) (row : List Cell) :
    (mergeStep pk incomingCols keys st row).merged = st.merged ∨
    ∃ s, colCell incomingCols row pk = some s ∧ isBlank s = false ∧
      keys.contains s = true ∧
      (mergeStep pk incomingCols keys st row).merged
        = (processMatched st.merged incomingCols row pk s).1 := by
  unfold mergeStep
  cases h : colCell incomingCols row pk with
  | none => exact Or.inl rfl
  | some s =>
    dsimp only
    by_cases hb : isBlank s = true
    · rw [if_pos hb]
      exact Or.inl rfl
    · rw [if_neg hb]
      by_cases hk : keys.contains s = true
      · rw [if_pos hk]
        exact Or.inr ⟨s, rfl, Bool.eq_false_iff.2 hb, hk, rfl⟩
      · rw [if_neg hk]
        exact Or.inl rfl

theorem mergeStep_preserves (pk : String) (incomingCols : List String)
    (keys : List String) (st : MergeState) (row : List Cell) :
    Preserves st.merged (mergeStep pk incomingCols keys st row).merged := by
  rcases mergeStep_merged_cases pk incomingCols keys st row with h | ⟨s, _, _, _, h⟩
  · rw [h]
    exact Preserves.refl _
  · rw [h]
    exact processMatched_preserves _ _ _ _ _

theorem mergeStep_cols (pk : String) (incomingCols : List String)
    (keys : List String) (st : MergeState) (row : List Cell) :
    (mergeStep pk incomingCols keys st row).merged.cols = st.merged.cols := by
  rcases mergeStep_merged_cases pk incomingCols keys st row with h | ⟨s, _, _, _, h⟩
  · rw [h]
  · rw [h]
    exact processMatched_cols ..

theorem mergeStep_rows_length (pk : String) (incomingCols : List String)
    (keys : List String) (st : MergeState) (row : List Cell) :
    (mergeStep pk incomingCols keys st row).merged.rows.length
      = st.merged.rows.length := by
  rcases mergeStep_merged_cases pk incomingCols keys st row with h | ⟨s, _, _, _, h⟩
  · rw [h]
  · rw [h]
    exact processMatched_rows_length ..

theorem mergeStep_rowLen (pk : String) (incomingCols : List String)
    (keys : List String) (st : MergeState) (row : List Cell) (i' : Nat) :
    (mergeStep pk incomingCols keys st row).merged.rowLen i'
      = st.merged.rowLen i' := by
  rcases mergeStep_merged_cases pk incomingCols keys st row with h | ⟨s, _, _, _, h⟩
  · rw [h]
  · rw [h]
    exact processMatched_rowLen ..

theorem concatByName_cols (a b : DF) :
    (concatByName a b).cols = a.cols ++ b.cols.filter (fun c => !a.cols.contains c) := rfl

theorem concatByName_rows_length (a b : DF) :
    (concatByName a b).rows.length = a.rows.length + b.rows.length := by
  unfold concatByName
  simp

theorem pad_getElem? (r : List Cell) (k j : Nat) :
    (((r ++ List.replicate k (none : Cell))[j]?).getD none) = ((r[j]?).getD none) := by
  rw [List.getElem?_append]
  split
  · rfl
  · next h =>
    have hr : r[j]? = none := List.getElem?_eq_none (by omega)
    rw [hr]
    cases hrep : (List.replicate k (none : Cell))[j - r.length]? with
    | none => rfl
    | some c =>
      have hc := List.eq_of_mem_replicate (List.getElem?_mem hrep)
      rw [hc]
      rfl

theorem concatByName_cellAtPos_left (a b : DF) {i : Nat} (hi : i < a.rows.length)
    (j : Nat) : (concatByName a b).cellAtPos i j = a.cellAtPos i j := by
  unfold concatByName DF.cellAtPos
  simp only
  rw [getElem?_append_left' (by simpa using hi), List.getElem?_map]
  cases hr : a.rows[i]? with
  | none =>
    rw [List.getElem?_eq_none_iff] at hr
    omega
  | some r =>
    simp only [Option.map_some', Option.bind_some]
    exact pad_getElem? ..

theorem concatByName_preserves (a b : DF) : Preserves a (concatByName a b) := by
  intro i j h
  by_cases hi : i < a.rows.length
  · exact concatByName_cellAtPos_left a b hi j
  · rw [cellAtPos_out_of_range hi j] at h
    cases h

/-! ### Branch equations of safe_upsert_merge -/

theorem dropAllNa_cols (df : DF) : (dropAllNa df).cols = df.cols := rfl

theorem merge_eq_of_empty_existing {existing incoming : DF} (pk : String)
    (he : existing.isEmpty = true) (hi : incoming.isEmpty = false) :
    safe_upsert_merge (some existing) (some incoming) pk
      = (incoming, ⟨incoming.rows.length, 0, 0⟩) := by
  unfold safe_upsert_merge
  rw [if_pos (by simpa [isMissing] using he), if_neg (by simp [isMissing, hi])]
  rfl

theorem merge_eq_of_empty_incoming {existing incoming : DF} (pk : String)
    (he : existing.isEmpty = false) (hi : incoming.isEmpty = true) :
    safe_upsert_merge (some existing) (some incoming) pk = (existing, ⟨0, 0, 0⟩) := by
  unfold safe_upsert_merge
  rw [if_neg (by simp [isMissing, he]), if_pos (by simpa [isMissing] using hi)]
  rfl

theorem merge_eq_fallback {existing incoming : DF} (pk : String)
    (he : existing.isEmpty = false) (hi : incoming.isEmpty = false)
    (hpk : (!(existing.cols.contains pk) || !(incoming.cols.contains pk)) = true) :
    safe_upsert_merge (some existing) (some incoming) pk
      = (concatByName existing (dropAllNa incoming),
          ⟨(dropAllNa incoming).rows.length, 0, 0⟩) := by
  unfold safe_upsert_merge
  rw [if_neg (by simp [isMissing, he]), if_neg (by simp [isMissing, hi])]
  simp only [Option.getD_some, dropAllNa_cols]
  rw [if_pos hpk]

theorem merge_eq_main {existing incoming : DF} (pk : String)
    (he : existing.isEmpty = false) (hi : incoming.isEmpty = false)
    (h1 : existing.cols.contains pk = true)
    (h2 : incoming.cols.contains pk = true) :
    safe_upsert_merge (some existing) (some incoming) pk
      = (let inc := dropAllNa incoming
         let st := mergeLoop pk inc.cols (keySet existing pk) inc.rows
            ⟨existing, [], ⟨0, 0, 0⟩⟩
         if st.newRows.isEmpty then (st.merged, st.stats)
         else (concatByName st.merged ⟨inc.cols, st.newRows⟩,
            { st.stats with rows_added := st.newRows.length })) := by
  unfold safe_upsert_merge
  rw [if_neg (by simp [isMissing, he]), if_neg (by simp [isMissing, hi])]
  simp only [Option.getD_some]
  rw [if_neg (by
    simp only [dropAllNa_cols]
    rw [h1, h2]
    simp)]

theorem mergeLoop_preserves (pk : String) (incomingCols : List String)
    (keys : List String) (rows : List (List Cell)) (init : MergeState) :
    Preserves init.merged (mergeLoop pk incomingCols keys rows init).merged :=
  foldl_preserves MergeState.merged (mergeStep pk incomingCols keys)
    (fun s b => mergeStep_preserves pk incomingCols keys s b) rows init

theorem mergeLoop_cols (pk : String) (incomingCols : List String)
    (keys : List String) (rows : List (List Cell)) (init : MergeState) :
    (mergeLoop pk incomingCols keys rows init).merged.cols = init.merged.cols :=
  foldl_invariant (fun st => st.merged.cols = init.merged.cols) _ rows
    (fun s b _ hs => (mergeStep_cols pk incomingCols keys s b).trans hs) init rfl

theorem mergeLoop_rows_length (pk : String) (incomingCols : List String)
    (keys : List String) (rows : List (List Cell)) (init : MergeState) :
    (mergeLoop pk incomingCols keys rows init).merged.rows.length
      = init.merged.rows.length :=
  foldl_invariant (fun st => st.merged.rows.length = init.merged.rows.length) _ rows
    (fun s b _ hs => (mergeStep_rows_length pk incomingCols keys s b).trans hs) init rfl

/-- The merge result preserves every non-empty cell of a non-empty existing
frame whose column list is non-empty. -/
theorem safe_upsert_merge_preserves (existing incoming : DF) (pk : String)
    (hcols : existing.cols ≠ []) :
    Preserves existing (safe_upsert_merge (some existing) (some incoming) pk).1 := by
  by_cases he : existing.isEmpty = true
  · have hrows : existing.rows = [] := by
      unfold DF.isEmpty at he
      rcases Bool.or_eq_true_iff.1 he with h | h
      · exact List.isEmpty_iff.1 h
      · exact absurd (List.isEmpty_iff.1 h) hcols
    intro i j hne
    rw [cellAtPos_out_of_range (by rw [hrows]; simp) j] at hne
    cases hne
  · have he' : existing.isEmpty = false := Bool.eq_false_iff.2 he
    by_cases hi : incoming.isEmpty = true
    · rw [merge_eq_of_empty_incoming pk he' hi]
      exact Preserves.refl _
    · have hi' : incoming.isEmpty = false := Bool.eq_false_iff.2 hi
      by_cases hpk : (!(existing.cols.contains pk) || !(incoming.cols.contains pk)) = true
      · rw [merge_eq_fallback pk he' hi' hpk]
        exact concatByName_preserves _ _
      · have hc := Bool.or_eq_false_iff.1 (Bool.eq_false_iff.2 hpk)
        have h1 : existing.cols.contains pk = true := by
          have := hc.1
          simpa using this
        have h2 : incoming.cols.contains pk = true := by
          have := hc.2
          simpa using this
        rw [merge_eq_main pk he' hi' h1 h2]
        simp only
        split
        · exact mergeLoop_preserves pk _ _ _ ⟨existing, [], ⟨0, 0, 0⟩⟩
        · exact (mergeLoop_preserves pk _ _ _ ⟨existing, [], ⟨0, 0, 0⟩⟩).trans
            (concatByName_preserves _ _)

/-! ### Sorting and schema-evolution lemmas -/

theorem charListLe_of_not (a b : List Char) (h : charListLe a b = false) :
    charListLe b a = true := by
  induction a generalizing b with
  | nil => cases h
  | cons x s ih =>
    cases b with
    | nil => rfl
    | cons y t =>
      by_cases hxy : x < y
      · rw [charListLe, if_pos hxy] at h
        cases h
      · by_cases hxy2 : x = y
        · subst hxy2
          rw [charListLe, if_neg hxy, if_pos rfl] at h
          rw [charListLe, if_neg hxy, if_pos rfl]
          exact ih t h
        · have hyx : y < x := by
            rcases lt_trichotomy x y with h3 | h3 | h3
            · exact absurd h3 hxy
            · exact absurd h3 hxy2
            · exact h3
          rw [charListLe, if_pos hyx]

theorem charListLe_trans : ∀ {a b c : List Char}, charListLe a b = true →
    charListLe b c = true → charListLe a c = true := by
  intro a
  induction a with
  | nil => intro b c _ _; rfl
  | cons x s ih =>
    intro b c hab hbc
    cases b with
    | nil => cases hab
    | cons y t =>
      cases c with
      | nil => cases hbc
      | cons z u =>
        by_cases hxy : x < y
        · by_cases hyz : y < z
          · rw [charListLe, if_pos (lt_trans hxy hyz)]
          · by_cases hyz2 : y = z
            · subst hyz2
              rw [charListLe, if_pos hxy]
            · rw [charListLe, if_neg hyz, if_neg hyz2] at hbc
              cases hbc
        · by_cases hxy2 : x = y
          · subst hxy2
            rw [charListLe, if_neg hxy, if_pos rfl] at hab
            by_cases hxz : x < z
            · rw [charListLe, if_pos hxz]
            · by_cases hxz2 : x = z
              · subst hxz2
                rw [charListLe, if_neg hxz, if_pos rfl] at hbc
                rw [charListLe, if_neg hxz, if_pos rfl]
                exact ih hab hbc
              · rw [charListLe, if_neg hxz, if_neg hxz2] at hbc
                cases hbc
          · rw [charListLe, if_neg hxy, if_neg hxy2] at hab
            cases hab

theorem strLe_of_not {a b : String} (h : strLe a b = false) : strLe b a = true :=
  charListLe_of_not a.data b.data h

theorem strLe_trans {a b c : String} (h1 : strLe a b = true)
    (h2 : strLe b c = true) : strLe a c = true :=
  charListLe_trans h1 h2

theorem mem_insertSorted {y s : String} {l : List String} :
    y ∈ insertSorted s l ↔ y = s ∨ y ∈ l := by
  induction l with
  | nil => simp [insertSorted]
  | cons x t ih =>
    unfold insertSorted
    by_cases hs : strLe s x = true
    · rw [if_pos hs]
      simp
    · rw [if_neg hs]
      simp only [List.mem_cons, ih]
      tauto

theorem pairwise_insertSorted {s : String} {l : List String}
    (h : l.Pairwise (fun a b => strLe a b = true)) :
    (insertSorted s l).Pairwise (fun a b => strLe a b = true) := by
  induction l with
  | nil => simp [insertSorted]
  | cons x t ih =>
    rw [List.pairwise_cons] at h
    unfold insertSorted
    by_cases hs : strLe s x = true
    · rw [if_pos hs]
      refine List.pairwise_cons.2 ⟨?_, List.pairwise_cons.2 ⟨h.1, h.2⟩⟩
      intro y hy
      rcases List.mem_cons.1 hy with rfl | hyt
      · exact hs
      · exact strLe_trans hs (h.1 y hyt)
    · rw [if_neg hs]
      refine List.pairwise_cons.2 ⟨?_, ih h.2⟩
      intro y hy
      rcases mem_insertSorted.1 hy with rfl | hyt
      · exact strLe_of_not (Bool.eq_false_iff.2 hs)
      · exact h.1 y hyt

theorem mem_sortStrings {y : String} {l : List String} :
    y ∈ sortStrings l ↔ y ∈ l := by
  induction l with
  | nil => simp [sortStrings]
  | cons x t ih =>
    unfold sortStrings
    rw [mem_insertSorted, ih]
    simp

theorem pairwise_sortStrings (l : List String) :
    (sortStrings l).Pairwise (fun a b => strLe a b = true) := by
  induction l with
  | nil => simp [sortStrings]
  | cons x t ih => exact pairwise_insertSorted ih

theorem mem_newColumns {c : String} {masterCols incomingCols : List String} :
    c ∈ newColumns masterCols incomingCols ↔ c ∈ incomingCols ∧ c ∉ masterCols := by
  unfold newColumns
  rw [mem_sortStrings, List.mem_dedup, List.mem_filter]
  simp

theorem addNACol_foldl (master : DF) (cols : List String) :
    cols.foldl addNACol master
      = ⟨master.cols ++ cols,
          master.rows.map (fun r => r ++ List.replicate cols.length none)⟩ := by
  induction cols generalizing master with
  | nil =>
    cases master with
    | mk c r => simp
  | cons c t ih =>
    rw [List.foldl_cons, ih]
    unfold addNACol
    simp only [List.map_map, List.replicate_succ, List.length_cons]
    refine congrArg₂ DF.mk (by simp) ?_
    refine List.map_congr_left ?_
    intro r _
    simp

theorem evolve_eq_main {master incoming : DF}
    (hm : master.isEmpty = false) (hi : incoming.isEmpty = false) :
    evolve_schema (some master) (some incoming)
      = if (newColumns master.cols incoming.cols).isEmpty then (master, [])
        else ((newColumns master.cols incoming.cols).foldl addNACol master,
          newColumns master.cols incoming.cols) := by
  unfold evolve_schema
  rw [if_neg (by simp [isMissing, hm]), if_neg (by simp [isMissing, hi])]
  rfl

/-! ### Encoding-cascade lemmas -/

theorem str_data_append (a b : String) : (a ++ b).data = a.data ++ b.data := by
  cases a
  cases b
  rfl

theorem listOccurs_append_left (n h t : List Char) (hx : listOccurs n t = true) :
    listOccurs n (h ++ t) = true := by
  induction h with
  | nil => exact hx
  | cons c cs ih =>
    rw [List.cons_append,
      show listOccurs n (c :: (cs ++ t))
        = (listStartsWith n (c :: (cs ++ t)) || listOccurs n (cs ++ t)) from rfl,
      Bool.or_eq_true]
    exact Or.inr ih

theorem strOccurs_append_left (a b n : String) (hx : strOccurs b n = true) :
    strOccurs (a ++ b) n = true := by
  unfold strOccurs
  rw [str_data_append]
  exact listOccurs_append_left n.data a.data b.data hx

theorem cascadeLoop_first_ok (file : String → ReadResult) (path : String) :
    ∀ (pre : List String) (enc : String) (rest : List String) (text : String),
      (∀ e ∈ pre, decodeFails (file e) = true) → file enc = .ok text →
      cascadeLoop file path (pre ++ enc :: rest) = .ok (text, enc) := by
  intro pre
  induction pre with
  | nil =>
    intro enc rest text _ hok
    rw [List.nil_append]
    show (match file enc with
      | .ok text => Except.ok (text, enc)
      | .unicodeError _ => cascadeLoop file path rest
      | .permissionError => Except.error ReadFailure.permission
      | .otherError _ => cascadeLoop file path rest) = Except.ok (text, enc)
    rw [hok]
  | cons e pre ih =>
    intro enc rest text hfail hok
    have hfe : decodeFails (file e) = true := hfail e (List.mem_cons_self _ _)
    rw [List.cons_append]
    show (match file e with
      | .ok text => Except.ok (text, e)
      | .unicodeError _ => cascadeLoop file path (pre ++ enc :: rest)
      | .permissionError => Except.error ReadFailure.permission
      | .otherError _ => cascadeLoop file path (pre ++ enc :: rest)) = Except.ok (text, enc)
    cases hcase : file e with
    | ok t =>
      rw [hcase] at hfe
      cases hfe
    | permissionError =>
      rw [hcase] at hfe
      cases hfe
    | unicodeError m =>
      exact ih enc rest text (fun x hx => hfail x (List.mem_cons_of_mem _ hx)) hok
    | otherError m =>
      exact ih enc rest text (fun x hx => hfail x (List.mem_cons_of_mem _ hx)) hok

theorem cascadeLoop_permission (file : String → ReadResult) (path : String) :
    ∀ (pre : List String) (enc : String) (rest : List String),
      (∀ e ∈ pre, decodeFails (file e) = true) → file enc = .permissionError →
      cascadeLoop file path (pre ++ enc :: rest) = .error .permission := by
  intro pre
  induction pre with
  | nil =>
    intro enc rest _ hperm
    rw [List.nil_append]
    show (match file enc with
      | .ok text => Except.ok (text, enc)
      | .unicodeError _ => cascadeLoop file path rest
      | .permissionError => Except.error ReadFailure.permission
      | .otherError _ => cascadeLoop file path rest) = Except.error ReadFailure.permission
    rw [hperm]
  | cons e pre ih =>
    intro enc rest hfail hperm
    have hfe : decodeFails (file e) = true := hfail e (List.mem_cons_self _ _)
    rw [List.cons_append]
    show (match file e with
      | .ok text => Except.ok (text, e)
      | .unicodeError _ => cascadeLoop file path (pre ++ enc :: rest)
      | .permissionError => Except.error ReadFailure.permission
      | .otherError _ => cascadeLoop file path (pre ++ enc :: rest))
        = Except.error ReadFailure.permission
    cases hcase : file e with
    | ok t =>
      rw [hcase] at hfe
      cases hfe
    | permissionError => rfl
    | unicodeError m =>
      exact ih enc rest (fun x hx => hfail x (List.mem_cons_of_mem _ hx)) hperm
    | otherError m =>
      exact ih enc rest (fun x hx => hfail x (List.mem_cons_of_mem _ hx)) hperm

theorem cascadeLoop_all_fail (file : String → ReadResult) (path : String) :
    ∀ (l : List String), (∀ e ∈ l, decodeFails (file e) = true) →
      cascadeLoop file path l
        = .error (.decodeFailure ("All encoding attempts failed for " ++ path
            ++ ". Tried: " ++ joinComma ENCODING_CASCADE)) := by
  intro l
  induction l with
  | nil => intro _; rfl
  | cons e t ih =>
    intro hfail
    have hfe : decodeFails (file e) = true := hfail e (List.mem_cons_self _ _)
    cases hcase : file e with
    | ok txt =>
      rw [hcase] at hfe
      cases hfe
    | permissionError =>
      rw [hcase] at hfe
      cases hfe
    | unicodeError m =>
      show (match file e with
        | .ok text => Except.ok (text, e)
        | .unicodeError _ => cascadeLoop file path t
        | .permissionError => Except.error ReadFailure.permission
        | .otherError _ => cascadeLoop file path t) = _
      rw [hcase]
      exact ih (fun x hx => hfail x (List.mem_cons_of_mem _ hx))
    | otherError m =>
      show (match file e with
        | .ok text => Except.ok (text, e)
        | .unicodeError _ => cascadeLoop file path t
        | .permissionError => Except.error ReadFailure.permission
        | .otherError _ => cascadeLoop file path t) = _
      rw [hcase]
      exact ih (fun x hx => hfail x (List.mem_cons_of_mem _ hx))

/-! ### Pipeline-state lemmas (schema monotonicity) -/

theorem merge_eq_none_existing {incoming : DF} (pk : String)
    (hi : incoming.isEmpty = false) :
    safe_upsert_merge none (some incoming) pk
      = (incoming, ⟨incoming.rows.length, 0, 0⟩) := by
  unfold safe_upsert_merge
  rw [if_pos (show isMissing none = true from rfl),
    if_neg (by simp [isMissing, hi])]
  rfl

theorem merge_cols_extend (existing incoming : DF) (pk : String)
    (he : existing.isEmpty = false) :
    ∃ ex, (safe_upsert_merge (some existing) (some incoming) pk).1.cols
      = existing.cols ++ ex := by
  by_cases hi : incoming.isEmpty = true
  · rw [merge_eq_of_empty_incoming pk he hi]
    exact ⟨[], by simp⟩
  · have hi' : incoming.isEmpty = false := Bool.eq_false_iff.2 hi
    by_cases hpk : (!(existing.cols.contains pk) || !(incoming.cols.contains pk)) = true
    · rw [merge_eq_fallback pk he hi' hpk]
      exact ⟨(dropAllNa incoming).cols.filter (fun c => !existing.cols.contains c),
        concatByName_cols ..⟩
    · have hc := Bool.or_eq_false_iff.1 (Bool.eq_false_iff.2 hpk)
      have h1 : existing.cols.contains pk = true := by simpa using hc.1
      have h2 : incoming.cols.contains pk = true := by simpa using hc.2
      rw [merge_eq_main pk he hi' h1 h2]
      simp only
      split
      · exact ⟨[], by rw [mergeLoop_cols]; simp⟩
      · exact ⟨_, by rw [concatByName_cols, mergeLoop_cols]⟩

theorem merge_rows_ge (existing incoming : DF) (pk : String)
    (he : existing.isEmpty = false) :
    existing.rows.length
      ≤ (safe_upsert_merge (some existing) (some incoming) pk).1.rows.length := by
  by_cases hi : incoming.isEmpty = true
  · rw [merge_eq_of_empty_incoming pk he hi]
  · have hi' : incoming.isEmpty = false := Bool.eq_false_iff.2 hi
    by_cases hpk : (!(existing.cols.contains pk) || !(incoming.cols.contains pk)) = true
    · rw [merge_eq_fallback pk he hi' hpk]
      rw [concatByName_rows_length]
      omega
    · have hc := Bool.or_eq_false_iff.1 (Bool.eq_false_iff.2 hpk)
      have h1 : existing.cols.contains pk = true := by simpa using hc.1
      have h2 : incoming.cols.contains pk = true := by simpa using hc.2
      rw [merge_eq_main pk he hi' h1 h2]
      simp only
      split
      · rw [mergeLoop_rows_length]
      · rw [concatByName_rows_length, mergeLoop_rows_length]
        dsimp only
        omega

theorem merge_nonempty (existing incoming : DF) (pk : String)
    (he : existing.isEmpty = false) :
    (safe_upsert_merge (some existing) (some incoming) pk).1.isEmpty = false := by
  have hrows : existing.rows ≠ [] := by
    intro h
    unfold DF.isEmpty at he
    rw [h] at he
    simp at he
  have hcols : existing.cols ≠ [] := by
    intro h
    unfold DF.isEmpty at he
    rw [h] at he
    simp at he
  obtain ⟨ex, hex⟩ := merge_cols_extend existing incoming pk he
  have hge := merge_rows_ge existing incoming pk he
  unfold DF.isEmpty
  rw [Bool.or_eq_false_iff]
  constructor
  · apply Bool.eq_false_iff.2
    intro h
    rw [List.isEmpty_iff] at h
    rw [h] at hge
    simp only [List.length_nil, Nat.le_zero] at hge
    exact hrows (List.length_eq_zero.1 hge)
  · apply Bool.eq_false_iff.2
    intro h
    rw [List.isEmpty_iff, hex] at h
    rcases List.append_eq_nil.1 h with ⟨h1, _⟩
    exact hcols h1

theorem addMissingCols_cols_extend (cols : List String) (df : DF) :
    ∃ ex, (addMissingCols df cols).cols = df.cols ++ ex := by
  induction cols generalizing df with
  | nil => exact ⟨[], by simp [addMissingCols]⟩
  | cons c t ih =>
    have h1 : addMissingCols df (c :: t) = addMissingCols (addMissingStep df c) t := rfl
    rcases ih (addMissingStep df c) with ⟨ex, hex⟩
    rw [h1, hex]
    unfold addMissingStep
    by_cases hc : df.cols.contains c = true
    · rw [if_pos hc]
      exact ⟨ex, rfl⟩
    · rw [if_neg hc]
      exact ⟨c :: ex, by simp [addNACol]⟩

theorem mem_addMissingCols (cols : List String) (df : DF) :
    ∀ c ∈ cols, c ∈ (addMissingCols df cols).cols := by
  induction cols generalizing df with
  | nil =>
    intro c hc
    cases hc
  | cons x t ih =>
    intro c hc
    have h1 : addMissingCols df (x :: t) = addMissingCols (addMissingStep df x) t := rfl
    rw [h1]
    rcases List.mem_cons.1 hc with rfl | hct
    · have hx : c ∈ (addMissingStep df c).cols := by
        unfold addMissingStep
        by_cases hcc : df.cols.contains c = true
        · rw [if_pos hcc]
          exact List.elem_iff.1 hcc
        · rw [if_neg hcc]
          simp [addNACol]
      rcases addMissingCols_cols_extend t (addMissingStep df c) with ⟨ex, hex⟩
      rw [hex]
      exact List.mem_append_left _ hx
    · exact ih (addMissingStep df x) c hct

theorem merged_nonempty_of_inv {st : PipelineState} {df : DF}
    (h : PipelineInv st) (hdf : df.isEmpty = false) :
    (safe_upsert_merge st.working (some df) PRIMARY_KEY).1.isEmpty = false := by
  rcases h with hnone | ⟨w, m, hw, hm, hne, hsub⟩
  · rw [hnone, merge_eq_none_existing PRIMARY_KEY hdf]
    exact hdf
  · rw [hw]
    exact merge_nonempty w df PRIMARY_KEY hne

theorem ingest_step_inv (st : PipelineState) (df : DF) (h : PipelineInv st) :
    PipelineInv (ingest_step st df) := by
  unfold ingest_step
  by_cases hdf : df.isEmpty = true
  · rw [if_pos hdf]
    exact h
  · have hdf' : df.isEmpty = false := Bool.eq_false_iff.2 hdf
    rw [if_neg hdf]
    have hne := merged_nonempty_of_inv h hdf'
    by_cases hmas : isMissing st.master = true
    · rw [if_pos hmas]
      exact Or.inr ⟨_, _, rfl, rfl, hne, fun c hc => hc⟩
    · rw [if_neg hmas]
      refine Or.inr ⟨_, _, rfl, rfl, hne, ?_⟩
      exact mem_addMissingCols _ _

theorem runAll_inv (dfs : List DF) : PipelineInv (runAll dfs) :=
  foldl_invariant PipelineInv ingest_step dfs
    (fun s b _ hs => ingest_step_inv s b hs) _ (Or.inl rfl)

/-! ### Character lemmas for column-name normalization -/

theorem uint32_ofNat_le {a : UInt32} {n : Nat} (hn : n < UInt32.size)
    (h : UInt32.ofNat n ≤ a) : n ≤ a.toNat := by
  rw [UInt32.le_def, BitVec.le_def] at h
  have h1 : (UInt32.ofNat n).toBitVec.toNat = n % 2 ^ 32 := by
    show (BitVec.ofNat 32 n).toNat = n % 2 ^ 32
    rw [BitVec.toNat_ofNat]
  have h2 : a.toNat = a.toBitVec.toNat := rfl
  have h4 : UInt32.size = 4294967296 := rfl
  have h5 : (2 : Nat) ^ 32 = 4294967296 := by norm_num
  have h3 : n % 2 ^ 32 = n := Nat.mod_eq_of_lt (by omega)
  omega

theorem uint32_le_ofNat {a : UInt32} {n : Nat} (hn : n < UInt32.size)
    (h : a ≤ UInt32.ofNat n) : a.toNat ≤ n := by
  rw [UInt32.le_def, BitVec.le_def] at h
  have h1 : (UInt32.ofNat n).toBitVec.toNat = n % 2 ^ 32 := by
    show (BitVec.ofNat 32 n).toNat = n % 2 ^ 32
    rw [BitVec.toNat_ofNat]
  have h2 : a.toNat = a.toBitVec.toNat := rfl
  have h4 : UInt32.size = 4294967296 := rfl
  have h5 : (2 : Nat) ^ 32 = 4294967296 := by norm_num
  have h3 : n % 2 ^ 32 = n := Nat.mod_eq_of_lt (by omega)
  omega

theorem isLower_toNat {c : Char} (h : c.isLower = true) :
    97 ≤ c.toNat ∧ c.toNat ≤ 122 := by
  unfold Char.isLower at h
  rw [Bool.and_eq_true, decide_eq_true_iff, decide_eq_true_iff] at h
  exact ⟨uint32_ofNat_le (by norm_num) h.1, uint32_le_ofNat (by norm_num) h.2⟩

theorem isDigit_toNat {c : Char} (h : c.isDigit = true) :
    48 ≤ c.toNat ∧ c.toNat ≤ 57 := by
  unfold Char.isDigit at h
  rw [Bool.and_eq_true, decide_eq_true_iff, decide_eq_true_iff] at h
  exact ⟨uint32_ofNat_le (by norm_num) h.1, uint32_le_ofNat (by norm_num) h.2⟩

theorem toLower_fix_of_good {c : Char} (h : goodChar c = true) : c.toLower = c := by
  unfold goodChar at h
  rw [Bool.or_eq_true, Bool.or_eq_true] at h
  rcases h with (h | h) | h
  · unfold Char.toLower
    rw [if_neg]
    have := isLower_toNat h
    omega
  · unfold Char.toLower
    rw [if_neg]
    have := isDigit_toNat h
    omega
  · have : c = '_' := by simpa using h
    subst this
    decide

theorem isUpper_toNat_iff (c : Char) :
    c.isUpper = true ↔ 65 ≤ c.toNat ∧ c.toNat ≤ 90 := by
  unfold Char.isUpper
  rw [Bool.and_eq_true, decide_eq_true_iff, decide_eq_true_iff]
  constructor
  · intro h
    exact ⟨uint32_ofNat_le (by norm_num) h.1, uint32_le_ofNat (by norm_num) h.2⟩
  · intro h
    constructor
    · rw [ge_iff_le, UInt32.le_def, BitVec.le_def]
      have h1 : ((65 : UInt32)).toBitVec.toNat = 65 := rfl
      have h2 : c.val.toBitVec.toNat = c.toNat := rfl
      omega
    · rw [UInt32.le_def, BitVec.le_def]
      have h1 : ((90 : UInt32)).toBitVec.toNat = 90 := rfl
      have h2 : c.val.toBitVec.toNat = c.toNat := rfl
      omega

theorem toLower_not_upper (c : Char) : (Char.toLower c).isUpper = false := by
  unfold Char.toLower
  by_cases hcond : c.toNat ≥ 65 ∧ c.toNat ≤ 90
  · rw [if_pos hcond]
    have hvalid : (c.toNat + 32).isValidChar := Or.inl (by omega)
    have hofnat : Char.ofNat (c.toNat + 32) = Char.ofNatAux (c.toNat + 32) hvalid :=
      dif_pos hvalid
    rw [hofnat]
    have hval : (Char.ofNatAux (c.toNat + 32) hvalid).toNat = c.toNat + 32 :=
      BitVec.toNat_ofNatLt _ _
    rw [Bool.eq_false_iff]
    intro hup
    have := (isUpper_toNat_iff _).1 hup
    omega
  · rw [if_neg hcond]
    rw [Bool.eq_false_iff]
    intro hup
    exact hcond ((isUpper_toNat_iff c).1 hup)

theorem good_not_whitespace {c : Char} (h : goodChar c = true) :
    c.isWhitespace = false := by
  unfold Char.isWhitespace
  have h1 : c ≠ ' ' := fun e => absurd (e ▸ h) (by decide)
  have h2 : c ≠ '\t' := fun e => absurd (e ▸ h) (by decide)
  have h3 : c ≠ '\r' := fun e => absurd (e ▸ h) (by decide)
  have h4 : c ≠ '\n' := fun e => absurd (e ▸ h) (by decide)
  simp [h1, h2, h3, h4]

theorem good_not_pySpace {c : Char} (h : goodChar c = true) :
    pyIsSpace c = false := by
  unfold pyIsSpace
  have h1 : c ≠ ' ' := fun e => absurd (e ▸ h) (by decide)
  have h2 : c ≠ '\t' := fun e => absurd (e ▸ h) (by decide)
  have h3 : c ≠ '\n' := fun e => absurd (e ▸ h) (by decide)
  have h4 : c ≠ '\r' := fun e => absurd (e ▸ h) (by decide)
  have h5 : c ≠ '\x0b' := fun e => absurd (e ▸ h) (by decide)
  have h6 : c ≠ '\x0c' := fun e => absurd (e ▸ h) (by decide)
  simp [h1, h2, h3, h4, h5, h6]

theorem good_ne_of_bad {c x : Char} (h : goodChar c = true)
    (hx : goodChar x = false) : (c == x) = false := by
  rw [beq_eq_false_iff_ne]
  intro e
  rw [e, hx] at h
  cases h

theorem good_isWordChar {c : Char} (h : goodChar c = true) :
    isWordChar c = true := by
  unfold goodChar at h
  unfold isWordChar Char.isAlphanum Char.isAlpha
  rw [Bool.or_eq_true, Bool.or_eq_true] at h
  rcases h with (h | h) | h <;> simp [h]

theorem wordChar_good_of_not_upper {c : Char} (hw : isWordChar c = true)
    (hu : c.isUpper = false) : goodChar c = true := by
  unfold isWordChar Char.isAlphanum Char.isAlpha at hw
  unfold goodChar
  rw [Bool.or_eq_true, Bool.or_eq_true, Bool.or_eq_true] at hw
  rcases hw with ((h | h) | h) | h
  · rw [h] at hu
    cases hu
  · simp [h]
  · simp [h]
  · simp [h]

/-! ### List-stage lemmas for column-name normalization -/

theorem dropWhile_eq_self_of_all {p : Char → Bool} {l : List Char}
    (h : ∀ c ∈ l, p c = false) : l.dropWhile p = l := by
  cases l with
  | nil => rfl
  | cons a t =>
    rw [List.dropWhile_cons, if_neg]
    rw [h a (List.mem_cons_self _ _)]
    exact Bool.false_ne_true

theorem dropWhile_head_false {p : Char → Bool} :
    ∀ {l : List Char} {c : Char}, (l.dropWhile p).head? = some c → p c = false := by
  intro l
  induction l with
  | nil => intro c h; cases h
  | cons a t ih =>
    intro c h
    rw [List.dropWhile_cons] at h
    by_cases hp : p a = true
    · rw [if_pos hp] at h
      exact ih h
    · rw [if_neg hp] at h
      cases h
      exact Bool.eq_false_iff.2 hp

theorem pyStrip_fix {l : List Char} (h : ∀ c ∈ l, goodChar c = true) :
    pyStrip l = l := by
  unfold pyStrip
  rw [dropWhile_eq_self_of_all (fun c hc => good_not_pySpace (h c hc)),
    dropWhile_eq_self_of_all (fun c hc => good_not_pySpace (h c (List.mem_reverse.1 hc))),
    List.reverse_reverse]

theorem map_toLower_fix {l : List Char} (h : ∀ c ∈ l, goodChar c = true) :
    l.map Char.toLower = l := by
  have hcg : ∀ c ∈ l, Char.toLower c = (fun c => c) c :=
    fun c hc => toLower_fix_of_good (h c hc)
  rw [List.map_congr_left hcg, List.map_id']

theorem map_subst_fix (x y : Char) (hx : goodChar x = false) {l : List Char}
    (h : ∀ c ∈ l, goodChar c = true) :
    l.map (fun c => if c == x then y else c) = l := by
  have hcg : ∀ c ∈ l, (fun c => if c == x then y else c) c = (fun c => c) c := by
    intro c hc
    simp [good_ne_of_bad (h c hc) hx]
  rw [List.map_congr_left hcg, List.map_id']

theorem filter_ne_fix (x : Char) (hx : goodChar x = false) {l : List Char}
    (h : ∀ c ∈ l, goodChar c = true) :
    l.filter (fun c => !(c == x)) = l :=
  List.filter_eq_self.2 (fun c hc => by simp [good_ne_of_bad (h c hc) hx])

theorem filter_word_fix {l : List Char} (h : ∀ c ∈ l, goodChar c = true) :
    l.filter isWordChar = l :=
  List.filter_eq_self.2 (fun c hc => good_isWordChar (h c hc))

theorem collapse_sublist : ∀ l : List Char, List.Sublist (collapseUnderscores l) l := by
  intro l
  induction l with
  | nil => exact List.Sublist.refl _
  | cons a t ih =>
    unfold collapseUnderscores
    by_cases ha : (a == '_') = true
    · rw [if_pos ha]
      have ha' : a = '_' := by simpa using ha
      subst ha'
      by_cases hh : ((collapseUnderscores t).head? == some '_') = true
      · rw [if_pos hh]
        exact ih.cons _
      · rw [if_neg hh]
        exact ih.cons₂ _
    · rw [if_neg ha]
      exact ih.cons₂ _

theorem collapse_chain : ∀ l : List Char, noAdjUnderscores (collapseUnderscores l) := by
  intro l
  induction l with
  | nil => exact List.chain'_nil
  | cons a t ih =>
    unfold collapseUnderscores
    by_cases ha : (a == '_') = true
    · rw [if_pos ha]
      by_cases hh : ((collapseUnderscores t).head? == some '_') = true
      · rw [if_pos hh]
        exact ih
      · rw [if_neg hh]
        refine List.chain'_cons'.2 ⟨?_, ih⟩
        intro b hb
        intro hcon
        apply hh
        rw [Option.mem_def] at hb
        rw [hb, hcon.2]
        rfl
    · rw [if_neg ha]
      refine List.chain'_cons'.2 ⟨?_, ih⟩
      intro b hb hcon
      exact absurd (by simpa using hcon.1 : (a == '_') = true) ha

theorem collapse_fix : ∀ {l : List Char}, noAdjUnderscores l → collapseUnderscores l = l := by
  intro l
  induction l with
  | nil => intro _; rfl
  | cons a t ih =>
    intro h
    have ht := (List.chain'_cons'.1 h).2
    have hhead := (List.chain'_cons'.1 h).1
    unfold collapseUnderscores
    rw [ih ht]
    by_cases ha : (a == '_') = true
    · rw [if_pos ha]
      have ha' : a = '_' := by simpa using ha
      subst ha'
      rw [if_neg]
      intro hh
      cases hth : t.head? with
      | none =>
        rw [hth] at hh
        cases hh
      | some b =>
        rw [hth] at hh
        have hb : b = '_' := by simpa using hh
        exact hhead b (by rw [Option.mem_def, hth]) ⟨rfl, hb⟩
    · rw [if_neg ha]

theorem stripEdge_subset {c : Char} {l : List Char}
    (h : c ∈ stripEdgeUnderscores l) : c ∈ l := by
  unfold stripEdgeUnderscores at h
  rw [List.mem_reverse] at h
  have h1 := (List.dropWhile_suffix _).sublist.subset h
  rw [List.mem_reverse] at h1
  exact (List.dropWhile_suffix _).sublist.subset h1

theorem stripEdge_head {l : List Char} :
    ∀ c, (stripEdgeUnderscores l).head? = some c → c ≠ '_' := by
  intro c hc
  unfold stripEdgeUnderscores at hc
  rw [List.head?_reverse] at hc
  set B := ((l.dropWhile (· == '_')).reverse).dropWhile (· == '_') with hB
  obtain ⟨pre, hpre⟩ := List.dropWhile_suffix (l := (l.dropWhile (· == '_')).reverse) (· == '_')
  have hBne : B ≠ [] := by
    intro hnil
    rw [hnil] at hc
    cases hc
  have hlast : ((l.dropWhile (· == '_')).reverse).getLast? = some c := by
    rw [← hpre, List.getLast?_append_of_ne_nil _ hBne]
    exact hc
  rw [List.getLast?_reverse] at hlast
  have := dropWhile_head_false hlast
  simpa using this

theorem stripEdge_last {l : List Char} :
    ∀ c, (stripEdgeUnderscores l).getLast? = some c → c ≠ '_' := by
  intro c hc
  unfold stripEdgeUnderscores at hc
  rw [List.getLast?_reverse] at hc
  have := dropWhile_head_false hc
  simpa using this

theorem chain_suffix_noAdj {l l' : List Char} (h : noAdjUnderscores l)
    (hs : l' <:+ l) : noAdjUnderscores l' := h.suffix hs

theorem noAdj_reverse {l : List Char} (h : noAdjUnderscores l) :
    noAdjUnderscores l.reverse := by
  unfold noAdjUnderscores at *
  rw [List.chain'_reverse]
  exact h.imp (fun a b hab hcon => hab ⟨hcon.2, hcon.1⟩)

theorem stripEdge_chain {l : List Char} (h : noAdjUnderscores l) :
    noAdjUnderscores (stripEdgeUnderscores l) := by
  unfold stripEdgeUnderscores
  apply noAdj_reverse
  apply chain_suffix_noAdj _ (List.dropWhile_suffix _)
  apply noAdj_reverse
  exact chain_suffix_noAdj h (List.dropWhile_suffix _)

theorem stripEdge_fix {l : List Char}
    (hhead : ∀ c, l.head? = some c → c ≠ '_')
    (hlast : ∀ c, l.getLast? = some c → c ≠ '_') :
    stripEdgeUnderscores l = l := by
  unfold stripEdgeUnderscores
  have h1 : l.dropWhile (· == '_') = l := by
    cases hl : l with
    | nil => rfl
    | cons a t =>
      rw [List.dropWhile_cons, if_neg]
      have : a ≠ '_' := hhead a (by rw [hl]; rfl)
      simp [this]
  rw [h1]
  have h2 : l.reverse.dropWhile (· == '_') = l.reverse := by
    cases hl : l.reverse with
    | nil => rfl
    | cons a t =>
      rw [List.dropWhile_cons, if_neg]
      have ha : l.getLast? = some a := by
        rw [← List.head?_reverse, hl]
        rfl
      have : a ≠ '_' := hlast a ha
      simp [this]
  rw [h2, List.reverse_reverse]

/-! ### Digit and name-shape lemmas -/

theorem digitChar_isDigit (k : Nat) : (digitChar k).isDigit = true := by
  unfold digitChar
  split <;> decide

theorem natDigitsGo_ne_nil (fuel n : Nat) : natDigitsGo (fuel + 1) n ≠ [] := by
  unfold natDigitsGo
  split
  · simp
  · simp

theorem natDigitsGo_all_digit :
    ∀ (fuel n : Nat), ∀ c ∈ natDigitsGo fuel n, c.isDigit = true := by
  intro fuel
  induction fuel with
  | zero =>
    intro n c hc
    cases hc
  | succ f ih =>
    intro n c hc
    unfold natDigitsGo at hc
    by_cases h10 : n < 10
    · rw [if_pos h10, List.mem_singleton] at hc
      rw [hc]
      exact digitChar_isDigit n
    · rw [if_neg h10] at hc
      rcases List.mem_append.1 hc with h | h
      · exact ih (n / 10) c h
      · rw [List.mem_singleton] at h
        rw [h]
        exact digitChar_isDigit _

theorem natDigits_ne_nil (n : Nat) : natDigits n ≠ [] := natDigitsGo_ne_nil n n

theorem natDigits_all_digit (n : Nat) : ∀ c ∈ natDigits n, c.isDigit = true :=
  natDigitsGo_all_digit (n + 1) n

theorem digit_good {c : Char} (h : c.isDigit = true) : goodChar c = true := by
  unfold goodChar
  simp [h]

theorem digit_ne_und {c : Char} (h : c.isDigit = true) : c ≠ '_' :=
  fun e => absurd (e ▸ h) (by decide)

theorem chain_of_no_und {l : List Char} (h : ∀ c ∈ l, c ≠ '_') :
    noAdjUnderscores l := by
  induction l with
  | nil => exact List.chain'_nil
  | cons a t ih =>
    refine List.chain'_cons'.2 ⟨?_, ih (fun c hc => h c (List.mem_cons_of_mem _ hc))⟩
    intro b _ hcon
    exact h a (List.mem_cons_self _ _) hcon.1

theorem noAdjB_sound : ∀ {l : List Char}, noAdjB l = true → noAdjUnderscores l := by
  intro l
  induction l with
  | nil => intro _; exact List.chain'_nil
  | cons a t ih =>
    intro h
    cases t with
    | nil => exact List.chain'_singleton a
    | cons b u =>
      unfold noAdjB at h
      rw [Bool.and_eq_true] at h
      refine List.chain'_cons.2 ⟨?_, ih h.2⟩
      intro hcon
      have : (a == '_' && b == '_') = true := by
        rw [hcon.1, hcon.2]
        rfl
      rw [this] at h
      cases h.1

theorem goodName_column (n : Nat) : GoodName ("column_" ++ natToStr n) := by
  have hdata : ("column_" ++ natToStr n).data = "column_".data ++ natDigits n :=
    str_data_append ..
  constructor
  · rw [hdata]
    intro h
    exact absurd (List.append_eq_nil.1 h).1 (by decide)
  · rw [hdata]
    intro c hc
    rcases List.mem_append.1 hc with h | h
    · exact (by decide : ∀ c ∈ "column_".data, goodChar c = true) c h
    · exact digit_good (natDigits_all_digit n c h)
  · intro c hc
    rw [hdata, List.head?_append_of_ne_nil _ (by decide : "column_".data ≠ [])] at hc
    have : c = 'c' := by
      have h0 : "column_".data.head? = some 'c' := rfl
      rw [h0] at hc
      exact (Option.some.injEq .. ▸ hc).symm
    rw [this]
    decide
  · intro c hc
    rw [hdata, List.getLast?_append_of_ne_nil _ (natDigits_ne_nil n)] at hc
    exact digit_ne_und (natDigits_all_digit n c (List.mem_of_getLast?_eq_some hc))
  · rw [hdata]
    refine List.Chain'.append (noAdjB_sound (by decide)) ?_ ?_
    · exact chain_of_no_und (fun c hc => digit_ne_und (natDigits_all_digit n c hc))
    · intro x _ y hy hcon
      exact digit_ne_und (natDigits_all_digit n y (List.mem_of_mem_head? hy)) hcon.2
  · intro c hc
    rw [hdata, List.head?_append_of_ne_nil _ (by decide : "column_".data ≠ [])] at hc
    have : c = 'c' := by
      have h0 : "column_".data.head? = some 'c' := rfl
      rw [h0] at hc
      exact (Option.some.injEq .. ▸ hc).symm
    rw [this]
    decide

theorem goodName_col_concat (name : String) (hne : name.data ≠ [])
    (hgood : ∀ c ∈ name.data, goodChar c = true)
    (hheadNU : ∀ c, name.data.head? = some c → c ≠ '_')
    (hlastNU : ∀ c, name.data.getLast? = some c → c ≠ '_')
    (hchain : noAdjUnderscores name.data) : GoodName ("col_" ++ name) := by
  have hdata : ("col_" ++ name).data = "col_".data ++ name.data := str_data_append ..
  constructor
  · rw [hdata]
    intro h
    exact absurd (List.append_eq_nil.1 h).1 (by decide)
  · rw [hdata]
    intro c hc
    rcases List.mem_append.1 hc with h | h
    · exact (by decide : ∀ c ∈ "col_".data, goodChar c = true) c h
    · exact hgood c h
  · intro c hc
    rw [hdata, List.head?_append_of_ne_nil _ (by decide : "col_".data ≠ [])] at hc
    have : c = 'c' := by
      have h0 : "col_".data.head? = some 'c' := rfl
      rw [h0] at hc
      exact (Option.some.injEq .. ▸ hc).symm
    rw [this]
    decide
  · intro c hc
    rw [hdata, List.getLast?_append_of_ne_nil _ hne] at hc
    exact hlastNU c hc
  · rw [hdata]
    refine List.Chain'.append (noAdjB_sound (by decide)) hchain ?_
    intro x _ y hy hcon
    exact hheadNU y (by rw [Option.mem_def] at hy; exact hy) hcon.2
  · intro c hc
    rw [hdata, List.head?_append_of_ne_nil _ (by decide : "col_".data ≠ [])] at hc
    have : c = 'c' := by
      have h0 : "col_".data.head? = some 'c' := rfl
      rw [h0] at hc
      exact (Option.some.injEq .. ▸ hc).symm
    rw [this]
    decide

theorem goodName_suffix (s : String) (hs : GoodName s) (k : Nat) :
    GoodName (s ++ "_" ++ natToStr k) := by
  have hdata : (s ++ "_" ++ natToStr k).data = (s.data ++ ['_']) ++ natDigits k := by
    rw [str_data_append, str_data_append]
    rfl
  have hs1 : s.data ++ ['_'] ≠ [] := by
    intro h
    cases List.append_eq_nil.1 h with
    | intro h1 h2 => cases h2
  constructor
  · rw [hdata]
    intro h
    exact absurd (List.append_eq_nil.1 h).1 hs1
  · rw [hdata]
    intro c hc
    rcases List.mem_append.1 hc with h | h
    · rcases List.mem_append.1 h with h2 | h2
      · exact hs.good c h2
      · rw [List.mem_singleton] at h2
        rw [h2]
        decide
    · exact digit_good (natDigits_all_digit k c h)
  · intro c hc
    rw [hdata, List.head?_append_of_ne_nil _ hs1,
      List.head?_append_of_ne_nil _ hs.ne] at hc
    exact hs.headNotUnd c hc
  · intro c hc
    rw [hdata, List.getLast?_append_of_ne_nil _ (natDigits_ne_nil k)] at hc
    exact digit_ne_und (natDigits_all_digit k c (List.mem_of_getLast?_eq_some hc))
  · rw [hdata]
    refine List.Chain'.append ?_ ?_ ?_
    · refine List.Chain'.append hs.chain (List.chain'_singleton '_') ?_
      intro x hx y hy hcon
      rw [Option.mem_def] at hx
      exact hs.lastNotUnd x hx hcon.1
    · exact chain_of_no_und (fun c hc => digit_ne_und (natDigits_all_digit k c hc))
    · intro x _ y hy hcon
      exact digit_ne_und (natDigits_all_digit k y (List.mem_of_mem_head? hy)) hcon.2
  · intro c hc
    rw [hdata, List.head?_append_of_ne_nil _ hs1,
      List.head?_append_of_ne_nil _ hs.ne] at hc
    exact hs.headNotDigit c hc

/-! ### cleanChars and cleanColumn lemmas -/

theorem subst_not_upper (x : Char) {c : Char} (h : c.isUpper = false) :
    (if c == x then '_' else c).isUpper = false := by
  split
  · decide
  · exact h

theorem cleanChars_good {s : List Char} : ∀ c ∈ cleanChars s, goodChar c = true := by
  intro c hc
  unfold cleanChars at hc
  have hc1 := stripEdge_subset hc
  have hc2 := (collapse_sublist _).subset hc1
  rw [List.mem_filter] at hc2
  obtain ⟨hm5, hword⟩ := hc2
  have hm4 := List.mem_of_mem_filter hm5
  have hm3 := List.mem_of_mem_filter hm4
  have hm2 := List.mem_of_mem_filter hm3
  have hm1 := List.mem_of_mem_filter hm2
  have hm0 := List.mem_of_mem_filter hm1
  rw [List.mem_map] at hm0
  obtain ⟨a, ha, rfl⟩ := hm0
  rw [List.mem_map] at ha
  obtain ⟨b, hb, rfl⟩ := ha
  rw [List.mem_map] at hb
  obtain ⟨d, _, rfl⟩ := hb
  exact wordChar_good_of_not_upper hword
    (subst_not_upper _ (subst_not_upper _ (toLower_not_upper d)))

theorem cleanChars_head {s : List Char} :
    ∀ c, (cleanChars s).head? = some c → c ≠ '_' := by
  intro c hc
  unfold cleanChars at hc
  exact stripEdge_head c hc

theorem cleanChars_last {s : List Char} :
    ∀ c, (cleanChars s).getLast? = some c → c ≠ '_' := by
  intro c hc
  unfold cleanChars at hc
  exact stripEdge_last c hc

theorem cleanChars_chain {s : List Char} : noAdjUnderscores (cleanChars s) := by
  unfold cleanChars
  exact stripEdge_chain (collapse_chain _)

theorem cleanChars_fix {l : List Char}
    (hgood : ∀ c ∈ l, goodChar c = true)
    (hchain : noAdjUnderscores l)
    (hhead : ∀ c, l.head? = some c → c ≠ '_')
    (hlast : ∀ c, l.getLast? = some c → c ≠ '_') :
    cleanChars l = l := by
  show stripEdgeUnderscores (collapseUnderscores ((((((((((pyStrip
    l).map Char.toLower).map (fun c => if c == ' ' then '_' else c)).map
    (fun c => if c == '-' then '_' else c)).filter (fun c => !(c == ':'))).filter
    (fun c => !(c == '('))).filter (fun c => !(c == ')'))).filter
    (fun c => !(c == '['))).filter (fun c => !(c == ']'))).filter isWordChar)) = l
  rw [pyStrip_fix hgood, map_toLower_fix hgood,
    map_subst_fix ' ' '_' (by decide) hgood,
    map_subst_fix '-' '_' (by decide) hgood,
    filter_ne_fix ':' (by decide) hgood,
    filter_ne_fix '(' (by decide) hgood,
    filter_ne_fix ')' (by decide) hgood,
    filter_ne_fix '[' (by decide) hgood,
    filter_ne_fix ']' (by decide) hgood,
    filter_word_fix hgood, collapse_fix hchain, stripEdge_fix hhead hlast]

theorem headIsDigit_false {s : String}
    (h : ∀ c, s.data.head? = some c → c.isDigit = false) :
    headIsDigit s = false := by
  unfold headIsDigit
  cases hd : s.data with
  | nil => rfl
  | cons c t => exact h c (by rw [hd]; rfl)

theorem head_not_digit_of {s : String} (h : headIsDigit s = false) :
    ∀ c, s.data.head? = some c → c.isDigit = false := by
  intro c hc
  unfold headIsDigit at h
  cases hd : s.data with
  | nil =>
    rw [hd] at hc
    cases hc
  | cons a t =>
    rw [hd] at hc h
    have hac : a = c := by simpa using hc
    rw [← hac]
    exact h

set_option maxHeartbeats 1000000 in
theorem goodName_cleanColumn (i : Nat) (col : Cell) : GoodName (cleanColumn i col) := by
  have hA : GoodName ("column_" ++ natToStr (i + 1)) := goodName_column (i + 1)
  cases col with
  | none => exact hA
  | some s =>
    simp only [cleanColumn]
    by_cases hb : isBlank s = true
    · rw [if_pos hb]
      exact hA
    · rw [if_neg hb]
      have hgood : ∀ c ∈ cleanChars s.data, goodChar c = true := cleanChars_good
      have hhead : ∀ c, (cleanChars s.data).head? = some c → c ≠ '_' := cleanChars_head
      have hlast : ∀ c, (cleanChars s.data).getLast? = some c → c ≠ '_' := cleanChars_last
      have hchain : noAdjUnderscores (cleanChars s.data) := cleanChars_chain
      revert hgood hhead hlast hchain
      generalize cleanChars s.data = L
      intro hgood hhead hlast hchain
      by_cases he : L.isEmpty = true
      · rw [if_pos he]
        by_cases hd : headIsDigit ("column_" ++ natToStr (i + 1)) = true
        · rw [if_pos hd]
          exact goodName_col_concat _ hA.ne hA.good hA.headNotUnd hA.lastNotUnd hA.chain
        · rw [if_neg hd]
          exact hA
      · rw [if_neg he]
        have hne : L ≠ [] := by
          intro hnil
          rw [hnil] at he
          exact he rfl
        by_cases hd : headIsDigit (String.mk L) = true
        · rw [if_pos hd]
          exact goodName_col_concat (String.mk L) hne hgood hhead hlast hchain
        · rw [if_neg hd]
          exact ⟨hne, hgood, hhead, hlast, hchain,
            head_not_digit_of (Bool.eq_false_iff.2 hd)⟩

theorem cleanColumn_fix (i : Nat) {s : String} (hs : GoodName s) :
    cleanColumn i (some s) = s := by
  simp only [cleanColumn]
  have hblank : isBlank s = false := by
    unfold isBlank
    cases hd : s.data with
    | nil => exact absurd hd hs.ne
    | cons a t =>
      have ha : goodChar a = true := hs.good a (by rw [hd]; exact List.mem_cons_self _ _)
      rw [List.all_cons, good_not_whitespace ha, Bool.false_and]
  rw [if_neg (by rw [hblank]; exact Bool.false_ne_true)]
  have hcc : cleanChars s.data = s.data :=
    cleanChars_fix hs.good hs.chain hs.headNotUnd hs.lastNotUnd
  rw [hcc]
  have hem : s.data.isEmpty = false := by
    cases hd : s.data with
    | nil => exact absurd hd hs.ne
    | cons a t => rfl
  rw [if_neg (by rw [hem]; exact Bool.false_ne_true)]
  have hmk : String.mk s.data = s := rfl
  rw [hmk]
  have hhd : headIsDigit s = false := headIsDigit_false hs.headNotDigit
  rw [if_neg (by rw [hhd]; exact Bool.false_ne_true)]

theorem goodName_cleanAll : ∀ (i : Nat) (cols : List Cell),
    ∀ n ∈ cleanAll i cols, GoodName n := by
  intro i cols
  induction cols generalizing i with
  | nil => intro n hn; cases hn
  | cons c t ih =>
    intro n hn
    unfold cleanAll at hn
    rcases List.mem_cons.1 hn with rfl | hm
    · exact goodName_cleanColumn i c
    · exact ih (i + 1) n hm

theorem cleanAll_map_some_fix : ∀ (i : Nat) (names : List String),
    (∀ n ∈ names, GoodName n) → cleanAll i (names.map some) = names := by
  intro i names
  induction names generalizing i with
  | nil => intro _; rfl
  | cons n t ih =>
    intro h
    show cleanColumn i (some n) :: cleanAll (i + 1) (t.map some) = n :: t
    rw [cleanColumn_fix i (h n (List.mem_cons_self _ _)),
      ih (i + 1) (fun m hm => h m (List.mem_cons_of_mem _ hm))]

/-! ### Duplicate-suffix lemmas -/

theorem lookupCount_append_none {t : List (String × Nat)} {s : String}
    (h : lookupCount t s = none) (a : String) (k : Nat) :
    lookupCount (t ++ [(a, k)]) s = if a == s then some k else none := by
  induction t with
  | nil => rfl
  | cons p u ih =>
    obtain ⟨b, m⟩ := p
    rw [List.cons_append]
    unfold lookupCount at h ⊢
    by_cases hb : (b == s) = true
    · rw [if_pos hb] at h
      cases h
    · rw [if_neg hb] at h ⊢
      exact ih h

theorem dedup_fold_fresh : ∀ (names : List String) (acc1 : List String)
    (table : List (String × Nat)), names.Nodup →
    (∀ n ∈ names, lookupCount table n = none) →
    (names.foldl dedupStep (acc1, table)).1 = acc1 ++ names := by
  intro names
  induction names with
  | nil =>
    intro acc1 table _ _
    simp
  | cons n t ih =>
    intro acc1 table hnd hfresh
    rw [List.foldl_cons]
    have hstep : dedupStep (acc1, table) n = (acc1 ++ [n], table ++ [(n, 0)]) := by
      show (match lookupCount table n with
        | some k => (acc1 ++ [n ++ "_" ++ natToStr (k + 1)], setCount table n (k + 1))
        | none => (acc1 ++ [n], table ++ [(n, 0)])) = _
      rw [hfresh n (List.mem_cons_self _ _)]
    rw [hstep]
    have hfr : ∀ m ∈ t, lookupCount (table ++ [(n, 0)]) m = none := by
      intro m hm
      rw [lookupCount_append_none (hfresh m (List.mem_cons_of_mem _ hm))]
      have hne : (n == m) = false := by
        rw [beq_eq_false_iff_ne]
        intro e
        exact (List.nodup_cons.1 hnd).1 (by rw [e]; exact hm)
      rw [if_neg (by rw [hne]; exact Bool.false_ne_true)]
    rw [ih (acc1 ++ [n]) (table ++ [(n, 0)]) (List.Nodup.of_cons hnd) hfr,
      List.append_assoc]
    rfl

theorem dedupNames_of_nodup {names : List String} (h : names.Nodup) :
    dedupNames names = names := by
  unfold dedupNames
  rw [dedup_fold_fresh names [] [] h (fun n _ => rfl)]
  rfl

theorem dedupStep_good {acc : List String × List (String × Nat)} {b : String}
    (hb : GoodName b) (hP : ∀ m ∈ acc.1, GoodName m) :
    ∀ m ∈ (dedupStep acc b).1, GoodName m := by
  unfold dedupStep
  cases hlk : lookupCount acc.2 b with
  | some k =>
    intro m hm
    rcases List.mem_append.1 hm with h1 | h1
    · exact hP m h1
    · rw [List.mem_singleton] at h1
      rw [h1]
      exact goodName_suffix b hb (k + 1)
  | none =>
    intro m hm
    rcases List.mem_append.1 hm with h1 | h1
    · exact hP m h1
    · rw [List.mem_singleton] at h1
      rw [h1]
      exact hb

theorem dedup_out_good {l : List String} (hl : ∀ n ∈ l, GoodName n) :
    ∀ m ∈ dedupNames l, GoodName m :=
  foldl_invariant (fun acc => ∀ m ∈ acc.1, GoodName m) dedupStep l
    (fun _ b hbl hP => dedupStep_good (hl b hbl) hP) ([], [])
    (fun m hm => absurd hm (List.not_mem_nil m))

/-! ### Fill-invariant lemmas (matched rows write empty cells) -/

theorem pmStep_col_ne (incomingCols : List String) (row : List Cell) (pk : String)
    (idxs : List Nat) (acc : DF × Bool) (col : String) {c : String} {j : Nat}
    (hcols : acc.1.cols.findIdx? (· == c) = some j) (hne : col ≠ c) (i' : Nat) :
    (pmStep incomingCols row pk idxs acc col).1.cellAtPos i' j
      = acc.1.cellAtPos i' j := by
  unfold pmStep
  split
  · rfl
  · split
    · rfl
    · next jc hjc =>
      split
      · rfl
      · have h1 := (findIdx?_getElem hjc).2
        have h2 := (findIdx?_getElem hcols).2
        have hjj : j ≠ jc := by
          intro hEq
          rw [hEq, h1] at h2
          have : col = c := by simpa using h2
          exact hne this
        exact fillColumn_other_col acc.1 idxs jc (colCell incomingCols row col) acc.2 hjj i'

theorem processMatched_writes (df : DF) (incomingCols : List String) (row : List Cell)
    (pk key : String) {c : String} {j : Nat} {v : String} {i : Nat}
    (hcpk : c ≠ pk)
    (hcj : df.cols.findIdx? (· == c) = some j)
    (hcin : c ∈ incomingCols)
    (hvC : colCell incomingCols row c = some v)
    (hv : cellEmpty (some v) = false)
    (hmem : i ∈ maskIdxs df pk key)
    (hempty : cellEmpty (df.cellAtPos i j) = true)
    (hi : i < df.rows.length)
    (hj : j < df.rowLen i) :
    (processMatched df incomingCols row pk key).1.cellAtPos i j = some v := by
  obtain ⟨m₁, e, m₂, hsplit, he, hall⟩ :=
    exists_first_split (fun col => col = c) hcin rfl
  subst he
  unfold processMatched
  have hres : (List.foldl (pmStep incomingCols row pk (maskIdxs df pk key))
      ((df, false) : DF × Bool) (m₁ ++ e :: m₂)).1.cellAtPos i j = some v := by
   rw [List.foldl_append, List.foldl_cons]
   set acc1 := List.foldl (pmStep incomingCols row pk (maskIdxs df pk key))
     ((df, false) : DF × Bool) m₁ with hacc1
   have hinv : acc1.1.cols = df.cols ∧ acc1.1.rows.length = df.rows.length
      ∧ acc1.1.rowLen i = df.rowLen i ∧ acc1.1.cellAtPos i j = df.cellAtPos i j :=
     foldl_invariant (fun acc => acc.1.cols = df.cols
         ∧ acc.1.rows.length = df.rows.length
         ∧ acc.1.rowLen i = df.rowLen i ∧ acc.1.cellAtPos i j = df.cellAtPos i j)
       (pmStep incomingCols row pk (maskIdxs df pk key)) m₁
       (fun s b hb hs => ⟨(pmStep_cols incomingCols row pk _ s b).trans hs.1,
         (pmStep_rows_length incomingCols row pk _ s b).trans hs.2.1,
         (pmStep_rowLen incomingCols row pk _ s b i).trans hs.2.2.1,
         (pmStep_col_ne incomingCols row pk _ s b (by rw [hs.1]; exact hcj)
           (hall b hb) i).trans hs.2.2.2⟩)
       (df, false) ⟨rfl, rfl, rfl, rfl⟩
   have hstep : (pmStep incomingCols row pk (maskIdxs df pk key) acc1 e).1.cellAtPos i j
       = some v := by
     unfold pmStep
     rw [if_neg (show ¬((e == pk) = true) by simp [hcpk])]
     have hf : acc1.1.cols.findIdx? (· == e) = some j := by
       rw [hinv.1]
       exact hcj
     rw [hf]
     dsimp only
     rw [hvC]
     rw [if_neg (by rw [hv]; exact Bool.false_ne_true)]
     exact fillColumn_fills acc1.1 (maskIdxs df pk key) j (some v) acc1.2 hmem
       (by rw [hinv.2.2.2]; exact hempty) (by rw [hinv.2.1]; exact hi)
       (by rw [hinv.2.2.1]; exact hj) hv
   have hpres := foldl_preserves Prod.fst (pmStep incomingCols row pk (maskIdxs df pk key))
     (fun s b => pmStep_preserves incomingCols row pk (maskIdxs df pk key) s b) m₂
     (pmStep incomingCols row pk (maskIdxs df pk key) acc1 e)
   rw [hpres i j (by rw [hstep]; exact hv), hstep]
  rw [← hsplit] at hres
  exact hres

theorem keySet_contains_of_cell {existing : DF} {pk keyStr : String} {i : Nat}
    (hi : i < existing.rows.length)
    (hkey : existing.cellByName i pk = some keyStr) :
    (keySet existing pk).contains keyStr = true := by
  apply List.elem_iff.2
  unfold keySet
  rw [List.mem_filterMap]
  cases hr : existing.rows[i]? with
  | none =>
    rw [List.getElem?_eq_none_iff] at hr
    omega
  | some r =>
    refine ⟨r, List.getElem?_mem hr, ?_⟩
    unfold DF.cellByName at hkey
    rw [hr] at hkey
    exact hkey

theorem mergeStep_cell_untouched (pk : String) (incomingCols : List String)
    (keys : List String) (st : MergeState) (row : List Cell) {i pkIdx : Nat}
    {keyStr : String}
    (hpk : st.merged.cols.findIdx? (· == pk) = some pkIdx)
    (hkey : st.merged.cellAtPos i pkIdx = some keyStr)
    (hrow : colCell incomingCols row pk ≠ some keyStr) (j' : Nat) :
    (mergeStep pk incomingCols keys st row).merged.cellAtPos i j'
      = st.merged.cellAtPos i j' := by
  rcases mergeStep_merged_cases pk incomingCols keys st row with h | ⟨s, hcol, _, _, h⟩
  · rw [h]
  · rw [h]
    have hsne : s ≠ keyStr := by
      intro e
      rw [e] at hcol
      exact hrow hcol
    apply processMatched_untouched_row
    intro hin
    unfold maskIdxs at hin
    rw [List.mem_filter] at hin
    have hcond := hin.2
    rw [cellByName_eq_cellAtPos i hpk, hkey] at hcond
    have : keyStr = s := by simpa [pyStr] using hcond
    exact hsne this.symm

theorem mergeStep_eq_matched (pk : String) (incomingCols : List String)
    (keys : List String) (st : MergeState) (row : List Cell) {s : String}
    (h : colCell incomingCols row pk = some s) (hb : isBlank s = false)
    (hk : keys.contains s = true) :
    (mergeStep pk incomingCols keys st row).merged
      = (processMatched st.merged incomingCols row pk s).1 := by
  unfold mergeStep
  cases hcase : colCell incomingCols row pk with
  | none =>
    rw [hcase] at h
    cases h
  | some u =>
    rw [hcase] at h
    have huu : u = s := Option.some.inj h
    subst huu
    dsimp only
    rw [if_neg (by rw [hb]; exact Bool.false_ne_true), if_pos hk]

theorem mergeLoop_writes (pk : String) (incomingCols : List String)
    (keys : List String) (existing : DF) (l₁ l₂ : List (List Cell)) (R : List Cell)
    (keyStr c v : String) (i j pkIdx : Nat)
    (hpk : existing.cols.findIdx? (· == pk) = some pkIdx)
    (hkeyE : existing.cellAtPos i pkIdx = some keyStr)
    (hl₁ : ∀ z ∈ l₁, ¬(colCell incomingCols z pk = some keyStr))
    (hkeyR : colCell incomingCols R pk = some keyStr)
    (hkeyNB : isBlank keyStr = false)
    (hkeys : keys.contains keyStr = true)
    (hcpk : c ≠ pk)
    (hcj : existing.cols.findIdx? (· == c) = some j)
    (hcin : c ∈ incomingCols)
    (hvC : colCell incomingCols R c = some v)
    (hv : cellEmpty (some v) = false)
    (hempty : cellEmpty (existing.cellAtPos i j) = true)
    (hi : i < existing.rows.length)
    (hj : j < existing.rowLen i) :
    (mergeLoop pk incomingCols keys (l₁ ++ R :: l₂)
      ⟨existing, [], ⟨0, 0, 0⟩⟩).merged.cellAtPos i j = some v := by
  unfold mergeLoop
  rw [List.foldl_append, List.foldl_cons]
  set st1 := List.foldl (mergeStep pk incomingCols keys)
    (⟨existing, [], ⟨0, 0, 0⟩⟩ : MergeState) l₁ with hst1
  have hinv : st1.merged.cols = existing.cols
      ∧ st1.merged.rows.length = existing.rows.length
      ∧ st1.merged.rowLen i = existing.rowLen i
      ∧ ∀ j', st1.merged.cellAtPos i j' = existing.cellAtPos i j' :=
    foldl_invariant (fun st => st.merged.cols = existing.cols
        ∧ st.merged.rows.length = existing.rows.length
        ∧ st.merged.rowLen i = existing.rowLen i
        ∧ ∀ j', st.merged.cellAtPos i j' = existing.cellAtPos i j')
      (mergeStep pk incomingCols keys) l₁
      (fun s z hz hs => ⟨(mergeStep_cols pk incomingCols keys s z).trans hs.1,
        (mergeStep_rows_length pk incomingCols keys s z).trans hs.2.1,
        (mergeStep_rowLen pk incomingCols keys s z i).trans hs.2.2.1,
        fun j' => (mergeStep_cell_untouched pk incomingCols keys s z
            (by rw [hs.1]; exact hpk)
            (by rw [hs.2.2.2 pkIdx]; exact hkeyE)
            (hl₁ z hz) j').trans (hs.2.2.2 j')⟩)
      (⟨existing, [], ⟨0, 0, 0⟩⟩ : MergeState) ⟨rfl, rfl, rfl, fun _ => rfl⟩
  have hmg : (mergeStep pk incomingCols keys st1 R).merged
      = (processMatched st1.merged incomingCols R pk keyStr).1 :=
    mergeStep_eq_matched pk incomingCols keys st1 R hkeyR hkeyNB hkeys
  have hmask : i ∈ maskIdxs st1.merged pk keyStr := by
    unfold maskIdxs
    rw [List.mem_filter, List.mem_range]
    refine ⟨by rw [hinv.2.1]; exact hi, ?_⟩
    rw [cellByName_eq_cellAtPos i
      (show st1.merged.cols.findIdx? (· == pk) = some pkIdx by rw [hinv.1]; exact hpk)]
    rw [hinv.2.2.2 pkIdx, hkeyE]
    simp [pyStr]
  have hwrite : (mergeStep pk incomingCols keys st1 R).merged.cellAtPos i j = some v := by
    rw [hmg]
    exact processMatched_writes st1.merged incomingCols R pk keyStr hcpk
      (by rw [hinv.1]; exact hcj) hcin hvC hv hmask
      (by rw [hinv.2.2.2 j]; exact hempty) (by rw [hinv.2.1]; exact hi)
      (by rw [hinv.2.2.1]; exact hj)
  have hpres := foldl_preserves MergeState.merged (mergeStep pk incomingCols keys)
    (fun s b => mergeStep_preserves pk incomingCols keys s b) l₂
    (mergeStep pk incomingCols keys st1 R)
  rw [hpres i j (by rw [hwrite]; exact hv), hwrite]

/-! ## Claim theorems -/

/-- C1: for every pair of record sets with the primary-key column present in
both, every cell of the `safe_upsert_merge` result at the position of an
existing row that already held a non-empty value equals that existing value
— a populated cell is never overwritten, regardless of the incoming value. -/
theorem upsert_merge_no_overwrite (existing incoming : DF) (pk : String)
    (hpkE : pk ∈ existing.cols) (_hpkI : pk ∈ incoming.cols) (i j : Nat)
    (hne : cellEmpty (existing.cellAtPos i j) = false) :
    (safe_upsert_merge (some existing) (some incoming) pk).1.cellAtPos i j
      = existing.cellAtPos i j :=
  safe_upsert_merge_preserves existing incoming pk (List.ne_nil_of_mem hpkE) i j hne

/-- Witness for C1: a populated score survives a conflicting incoming value. -/
theorem upsert_merge_no_overwrite_witness :
    (safe_upsert_merge (some ⟨["company_name", "v"], [[some "K", some "7"]]⟩)
        (some ⟨["company_name", "v"], [[some "K", some "8"]]⟩) "company_name").1.cellAtPos 0 1
      = (⟨["company_name", "v"], [[some "K", some "7"]]⟩ : DF).cellAtPos 0 1 :=
  upsert_merge_no_overwrite ⟨["company_name", "v"], [[some "K", some "7"]]⟩
    ⟨["company_name", "v"], [[some "K", some "8"]]⟩ "company_name"
    (by decide) (by decide) 0 1 (by decide)

/-- C3 counterexample: with a non-empty existing frame and a non-empty
incoming frame whose single row is entirely missing, and the primary key
absent from both, the merge drops the all-missing incoming row before the
append-only fallback: the result has 1 row, not `1 + 1`, and `rows_added`
is 0, not `len(incoming) = 1`. -/
theorem append_fallback_cex :
    ((safe_upsert_merge (some ⟨["a"], [[some "x"]]⟩) (some ⟨["a"], [[none]]⟩)
        "company_name").1.rows.length
      ≠ (⟨["a"], [[some "x"]]⟩ : DF).rows.length + (⟨["a"], [[none]]⟩ : DF).rows.length)
    ∧ (safe_upsert_merge (some ⟨["a"], [[some "x"]]⟩) (some ⟨["a"], [[none]]⟩)
        "company_name").2.rows_added ≠ (⟨["a"], [[none]]⟩ : DF).rows.length := by
  decide

/-- C3 amended: for non-empty existing and incoming record sets with the
primary-key column absent from at least one side, the merge concatenates the
incoming rows after the existing rows unchanged — after first dropping the
incoming rows whose every cell is missing — and the result's row count is
`len(existing)` plus the number of retained incoming rows, which is also the
reported `rows_added`. -/
theorem append_fallback (existing incoming : DF) (pk : String)
    (he : existing.isEmpty = false) (hi : incoming.isEmpty = false)
    (hpk : pk ∉ existing.cols ∨ pk ∉ incoming.cols) :
    (safe_upsert_merge (some existing) (some incoming) pk).1
        = concatByName existing (dropAllNa incoming)
    ∧ (safe_upsert_merge (some existing) (some incoming) pk).1.rows.length
        = existing.rows.length + (dropAllNa incoming).rows.length
    ∧ (safe_upsert_merge (some existing) (some incoming) pk).2.rows_added
        = (dropAllNa incoming).rows.length := by
  have hpk' : (!(existing.cols.contains pk) || !(incoming.cols.contains pk)) = true := by
    rcases hpk with h | h
    · have hc : existing.cols.contains pk = false := by simp [h]
      rw [hc]
      simp
    · have hc : incoming.cols.contains pk = false := by simp [h]
      rw [hc]
      simp
  rw [merge_eq_fallback pk he hi hpk']
  exact ⟨rfl, concatByName_rows_length .., rfl⟩

/-- Witness for C3 (amended): two disjoint one-column frames. -/
theorem append_fallback_witness :
    (safe_upsert_merge (some ⟨["a"], [[some "x"]]⟩) (some ⟨["b"], [[some "y"]]⟩) "company_name").1
        = concatByName ⟨["a"], [[some "x"]]⟩ (dropAllNa ⟨["b"], [[some "y"]]⟩)
    ∧ (safe_upsert_merge (some ⟨["a"], [[some "x"]]⟩) (some ⟨["b"], [[some "y"]]⟩)
        "company_name").1.rows.length
        = (⟨["a"], [[some "x"]]⟩ : DF).rows.length
          + (dropAllNa ⟨["b"], [[some "y"]]⟩).rows.length
    ∧ (safe_upsert_merge (some ⟨["a"], [[some "x"]]⟩) (some ⟨["b"], [[some "y"]]⟩)
        "company_name").2.rows_added = (dropAllNa ⟨["b"], [[some "y"]]⟩).rows.length :=
  append_fallback ⟨["a"], [[some "x"]]⟩ ⟨["b"], [[some "y"]]⟩ "company_name"
    (by decide) (by decide) (Or.inl (by decide))

/-- C4: Scenario A — merging existing row `{company_name: "A", score: missing,
note: "hello"}` with incoming row `{company_name: "A", score: "50",
note: "bye"}` under primary key `company_name` yields the merged row
`{company_name: "A", score: "50", note: "hello"}` with `rows_updated = 1`. -/
theorem scenario_a :
    safe_upsert_merge
      (some ⟨["company_name", "score", "note"], [[some "A", none, some "hello"]]⟩)
      (some ⟨["company_name", "score", "note"], [[some "A", some "50", some "bye"]]⟩)
      "company_name"
    = (⟨["company_name", "score", "note"], [[some "A", some "50", some "hello"]]⟩,
        ⟨0, 1, 0⟩) := by
  decide

/-- C10: at the object level, `safe_upsert_merge` leaves every pre-existing
heap object — in particular both argument objects, present or missing —
unchanged, and returns a freshly allocated object distinct from both
arguments. -/
theorem upsert_merge_no_mutation (h : List DF) (e i : Option Nat) (pk : String)
    (he : ∀ n, e = some n → n < h.length) (hi : ∀ n, i = some n → n < h.length) :
    heapGet (safe_upsert_merge_heap h e i pk).1 e = heapGet h e
    ∧ heapGet (safe_upsert_merge_heap h e i pk).1 i = heapGet h i
    ∧ (∀ j, j < h.length → (safe_upsert_merge_heap h e i pk).1[j]? = h[j]?)
    ∧ e ≠ some (safe_upsert_merge_heap h e i pk).2
    ∧ i ≠ some (safe_upsert_merge_heap h e i pk).2 := by
  refine ⟨?_, ?_, ?_, ?_, ?_⟩
  · cases e with
    | none => rfl
    | some n => exact getElem?_append_left' (he n rfl)
  · cases i with
    | none => rfl
    | some n => exact getElem?_append_left' (hi n rfl)
  · intro j hj
    exact getElem?_append_left' hj
  · intro hEq
    exact absurd (he _ hEq) (by simp [safe_upsert_merge_heap])
  · intro hEq
    exact absurd (hi _ hEq) (by simp [safe_upsert_merge_heap])

/-- Witness for C10: a two-object heap with both arguments present. -/
theorem upsert_merge_no_mutation_witness :
    heapGet (safe_upsert_merge_heap [⟨["company_name"], [[some "A"]]⟩,
        ⟨["company_name"], [[some "B"]]⟩] (some 0) (some 1) "company_name").1 (some 0)
      = heapGet [⟨["company_name"], [[some "A"]]⟩, ⟨["company_name"], [[some "B"]]⟩] (some 0)
    ∧ heapGet (safe_upsert_merge_heap [⟨["company_name"], [[some "A"]]⟩,
        ⟨["company_name"], [[some "B"]]⟩] (some 0) (some 1) "company_name").1 (some 1)
      = heapGet [⟨["company_name"], [[some "A"]]⟩, ⟨["company_name"], [[some "B"]]⟩] (some 1)
    ∧ (∀ j, j < ([⟨["company_name"], [[some "A"]]⟩,
        ⟨["company_name"], [[some "B"]]⟩] : List DF).length →
        (safe_upsert_merge_heap [⟨["company_name"], [[some "A"]]⟩,
          ⟨["company_name"], [[some "B"]]⟩] (some 0) (some 1) "company_name").1[j]?
        = ([⟨["company_name"], [[some "A"]]⟩, ⟨["company_name"], [[some "B"]]⟩] : List DF)[j]?)
    ∧ (some 0 : Option Nat) ≠ some (safe_upsert_merge_heap [⟨["company_name"], [[some "A"]]⟩,
        ⟨["company_name"], [[some "B"]]⟩] (some 0) (some 1) "company_name").2
    ∧ (some 1 : Option Nat) ≠ some (safe_upsert_merge_heap [⟨["company_name"], [[some "A"]]⟩,
        ⟨["company_name"], [[some "B"]]⟩] (some 0) (some 1) "company_name").2 :=
  upsert_merge_no_mutation [⟨["company_name"], [[some "A"]]⟩,
      ⟨["company_name"], [[some "B"]]⟩] (some 0) (some 1) "company_name"
    (fun n hn => by cases hn; decide) (fun n hn => by cases hn; decide)


/-- C2 counterexample: with existing columns `["company_name", "x"]` and
incoming columns `["company_name", "zz"]`, the incoming row `["A", "9"]`
matches the existing key `"A"`, the existing cell for `"zz"` is missing and
the incoming value `"9"` is non-empty, yet the merge result carries no `"9"`:
`safe_upsert_merge` skips every incoming column absent from the merged frame
(`col not in merged.columns: continue`), so the claimed fill does not
happen. -/
theorem fill_invariant_cex :
    cellEmpty ((⟨["company_name", "x"], [[some "A", some "1"]]⟩ : DF).cellByName 0 "zz") = true
    ∧ cellEmpty (colCell ["company_name", "zz"] [some "A", some "9"] "zz") = false
    ∧ (keySet ⟨["company_name", "x"], [[some "A", some "1"]]⟩ "company_name").contains "A" = true
    ∧ colCell ["company_name", "zz"] [some "A", some "9"] "company_name" = some "A"
    ∧ (safe_upsert_merge (some ⟨["company_name", "x"], [[some "A", some "1"]]⟩)
        (some ⟨["company_name", "zz"], [[some "A", some "9"]]⟩) "company_name").1.cellByName 0 "zz"
      ≠ some "9" := by
  decide

/-- **C2** (amended): the fill invariant, restricted to columns that exist in
the existing frame and to a key carried by a unique incoming row.  If the
incoming row `R` carries the non-blank key `keyStr`, no other incoming row
carries that key, existing row `i` holds the key, the non-key column `c`
exists in the existing frame at position `j`, the incoming value `v` for `c`
is non-empty, the existing cell at `(i, c)` is empty, and the existing rows
are rectangular, then the merge result holds `v` at `(i, c)`.
(Unrestricted, the claim is false: see the counterexample — a column absent
from the existing frame is skipped, not filled.) -/
theorem fill_invariant (existing incoming : DF) (pk : String)
    (R : List Cell) (keyStr c v : String) (i j : Nat)
    (hR : R ∈ incoming.rows)
    (hkeyR : colCell incoming.cols R pk = some keyStr)
    (hkeyNB : isBlank keyStr = false)
    (huniq : ∀ r ∈ incoming.rows, colCell incoming.cols r pk = some keyStr → r = R)
    (hi : i < existing.rows.length)
    (hkeyE : existing.cellByName i pk = some keyStr)
    (hcpk : c ≠ pk)
    (hcj : existing.cols.findIdx? (· == c) = some j)
    (hvC : colCell incoming.cols R c = some v)
    (hv : cellEmpty (some v) = false)
    (hempty : cellEmpty (existing.cellByName i c) = true)
    (hRect : ∀ r ∈ existing.rows, existing.cols.length ≤ r.length) :
    (safe_upsert_merge (some existing) (some incoming) pk).1.cellByName i c = some v := by
  obtain ⟨pkIdx, hpk⟩ : ∃ pkIdx, existing.cols.findIdx? (· == pk) = some pkIdx := by
    cases hf : existing.cols.findIdx? (· == pk) with
    | none =>
      rw [cellByName_none i hf] at hkeyE
      cases hkeyE
    | some p => exact ⟨p, rfl⟩
  have heNE : existing.isEmpty = false := by
    have h1 : existing.rows.isEmpty = false := by
      cases hrows : existing.rows with
      | nil =>
        rw [hrows] at hi
        simp at hi
      | cons a t => rfl
    have h2 : existing.cols.isEmpty = false := by
      cases hcols : existing.cols with
      | nil =>
        rw [hcols] at hcj
        simp at hcj
      | cons a t => rfl
    unfold DF.isEmpty
    rw [h1, h2]
    rfl
  have hiNE : incoming.isEmpty = false := by
    have h1 : incoming.rows.isEmpty = false := by
      cases hrows : incoming.rows with
      | nil =>
        rw [hrows] at hR
        cases hR
      | cons a t => rfl
    have h2 : incoming.cols.isEmpty = false := by
      cases hcols : incoming.cols with
      | nil =>
        unfold colCell at hvC
        rw [hcols] at hvC
        simp at hvC
      | cons a t => rfl
    unfold DF.isEmpty
    rw [h1, h2]
    rfl
  have hpkE : existing.cols.contains pk = true :=
    List.elem_iff.2 (List.getElem?_mem (findIdx?_getElem hpk).2)
  have hpkI : incoming.cols.contains pk = true := by
    cases hf : incoming.cols.findIdx? (· == pk) with
    | none =>
      unfold colCell at hkeyR
      rw [hf] at hkeyR
      cases hkeyR
    | some p => exact List.elem_iff.2 (List.getElem?_mem (findIdx?_getElem hf).2)
  have hcin : c ∈ incoming.cols := by
    cases hf : incoming.cols.findIdx? (· == c) with
    | none =>
      unfold colCell at hvC
      rw [hf] at hvC
      cases hvC
    | some jc => exact List.getElem?_mem (findIdx?_getElem hf).2
  have hkeys : (keySet existing pk).contains keyStr = true :=
    keySet_contains_of_cell hi hkeyE
  have hkeyE2 : existing.cellAtPos i pkIdx = some keyStr := by
    rw [← cellByName_eq_cellAtPos i hpk]
    exact hkeyE
  have hempty2 : cellEmpty (existing.cellAtPos i j) = true := by
    rw [← cellByName_eq_cellAtPos i hcj]
    exact hempty
  have hj2 : j < existing.rowLen i := by
    have hjc : j < existing.cols.length := (findIdx?_getElem hcj).1
    unfold DF.rowLen
    cases hr : existing.rows[i]? with
    | none =>
      rw [List.getElem?_eq_none_iff] at hr
      omega
    | some r =>
      have := hRect r (List.getElem?_mem hr)
      simp only [Option.getD_some]
      omega
  have hRv : (R[(incoming.cols.findIdx? (· == c)).getD 0]?) = some (some v) := by
    cases hf : incoming.cols.findIdx? (· == c) with
    | none =>
      unfold colCell at hvC
      rw [hf] at hvC
      cases hvC
    | some jc =>
      unfold colCell at hvC
      rw [hf] at hvC
      dsimp only at hvC
      simp only [Option.getD_some]
      cases hrj : R[jc]? with
      | none =>
        rw [hrj] at hvC
        simp at hvC
      | some cell =>
        rw [hrj] at hvC
        simp only [Option.getD_some] at hvC
        rw [hvC]
  have hRkeep : R ∈ (dropAllNa incoming).rows := by
    apply List.mem_filter.2
    refine ⟨hR, ?_⟩
    have hmemv : (some v : Cell) ∈ R := List.getElem?_mem hRv
    have hallf : R.all (fun c => c.isNone) = false := by
      rw [Bool.eq_false_iff]
      intro hall
      have := List.all_eq_true.1 hall (some v) hmemv
      simp at this
    rw [hallf]
    rfl
  obtain ⟨l₁, y, l₂, hsplit, hy, hl₁⟩ :=
    exists_first_split (fun r => colCell incoming.cols r pk = some keyStr) hRkeep hkeyR
  have hymem : y ∈ (dropAllNa incoming).rows := by
    rw [hsplit]
    exact List.mem_append.2 (Or.inr (List.mem_cons_self _ _))
  have hyR : y = R := huniq y (List.mem_of_mem_filter hymem) hy
  rw [hyR] at hsplit
  have hmain2 : safe_upsert_merge (some existing) (some incoming) pk =
      (if (mergeLoop pk incoming.cols (keySet existing pk) (dropAllNa incoming).rows
            ⟨existing, [], ⟨0, 0, 0⟩⟩).newRows.isEmpty then
        ((mergeLoop pk incoming.cols (keySet existing pk) (dropAllNa incoming).rows
            ⟨existing, [], ⟨0, 0, 0⟩⟩).merged,
         (mergeLoop pk incoming.cols (keySet existing pk) (dropAllNa incoming).rows
            ⟨existing, [], ⟨0, 0, 0⟩⟩).stats)
       else
        (concatByName (mergeLoop pk incoming.cols (keySet existing pk)
              (dropAllNa incoming).rows ⟨existing, [], ⟨0, 0, 0⟩⟩).merged
           ⟨incoming.cols, (mergeLoop pk incoming.cols (keySet existing pk)
              (dropAllNa incoming).rows ⟨existing, [], ⟨0, 0, 0⟩⟩).newRows⟩,
         { (mergeLoop pk incoming.cols (keySet existing pk) (dropAllNa incoming).rows
              ⟨existing, [], ⟨0, 0, 0⟩⟩).stats with
            rows_added := (mergeLoop pk incoming.cols (keySet existing pk)
              (dropAllNa incoming).rows ⟨existing, [], ⟨0, 0, 0⟩⟩).newRows.length })) :=
    merge_eq_main pk heNE hiNE hpkE hpkI
  rw [hmain2, hsplit]
  set ML := mergeLoop pk incoming.cols (keySet existing pk) (l₁ ++ R :: l₂)
    (⟨existing, [], ⟨0, 0, 0⟩⟩ : MergeState) with hML
  have hcell : ML.merged.cellAtPos i j = some v :=
    mergeLoop_writes pk incoming.cols (keySet existing pk) existing l₁ l₂ R
      keyStr c v i j pkIdx hpk hkeyE2 hl₁ hkeyR hkeyNB hkeys hcpk hcj hcin hvC hv
      hempty2 hi hj2
  have hcols2 : ML.merged.cols = existing.cols :=
    mergeLoop_cols pk incoming.cols (keySet existing pk) (l₁ ++ R :: l₂)
      ⟨existing, [], ⟨0, 0, 0⟩⟩
  have hlen2 : ML.merged.rows.length = existing.rows.length :=
    mergeLoop_rows_length pk incoming.cols (keySet existing pk) (l₁ ++ R :: l₂)
      ⟨existing, [], ⟨0, 0, 0⟩⟩
  split
  · show ML.merged.cellByName i c = some v
    rw [cellByName_eq_cellAtPos i
      (show ML.merged.cols.findIdx? (· == c) = some j by rw [hcols2]; exact hcj)]
    exact hcell
  · show (concatByName ML.merged ⟨incoming.cols, ML.newRows⟩).cellByName i c = some v
    have hf2 : (concatByName ML.merged ⟨incoming.cols, ML.newRows⟩).cols.findIdx?
        (· == c) = some j := by
      rw [concatByName_cols, hcols2]
      exact findIdx?_append_left hcj
    rw [cellByName_eq_cellAtPos i hf2]
    rw [concatByName_cellAtPos_left ML.merged ⟨incoming.cols, ML.newRows⟩
      (by rw [hlen2]; exact hi) j]
    exact hcell

theorem fill_invariant_witness :
    cellEmpty ((⟨["company_name", "score"], [[some "A", none]]⟩ : DF).cellByName 0 "score") = true
    ∧ cellEmpty (some "50") = false
    ∧ (safe_upsert_merge (some ⟨["company_name", "score"], [[some "A", none]]⟩)
        (some ⟨["company_name", "score"], [[some "A", some "50"]]⟩) "company_name").1.cellByName 0 "score"
      = some "50" :=
  ⟨by decide, by decide,
    fill_invariant ⟨["company_name", "score"], [[some "A", none]]⟩
      ⟨["company_name", "score"], [[some "A", some "50"]]⟩ "company_name"
      [some "A", some "50"] "A" "score" "50" 0 1
      (by decide) (by decide) (by decide) (by decide) (by decide) (by decide)
      (by decide) (by decide) (by decide) (by decide) (by decide) (by decide)⟩

/-- C5 (code bug): the headers `["a", "a 1", "a"]` clean to `["a", "a_1",
"a"]`; the duplicate-suffix pass renames the second `"a"` to `"a_1"`, which
collides with the independently cleaned name `"a_1"` — the output of
`normalize_columns` is not pairwise unique. -/
theorem normalize_columns_duplicate_collision :
    normalize_columns [some "a", some "a 1", some "a"] = ["a", "a_1", "a_1"]
    ∧ ¬ (normalize_columns [some "a", some "a 1", some "a"]).Nodup := by
  decide

/-- C6 counterexample: re-normalizing the (duplicate-carrying) output of
`normalize_columns` on the headers `["a", "a 1", "a"]` does not return the
same names — the second pass renames the colliding duplicate again. -/
theorem normalize_columns_not_idempotent :
    normalize_columns ((normalize_columns [some "a", some "a 1", some "a"]).map some)
      ≠ normalize_columns [some "a", some "a 1", some "a"] := by
  decide

/-- **C6** (amended): column normalization is idempotent on every header list
whose first normalization is duplicate-free: if the names produced by
`normalize_columns h` are pairwise distinct, running `normalize_columns` on a
record set that carries exactly those names returns the identical name
sequence.  (The unconditional claim fails — see the counterexample — because
a suffix-collision can leave duplicates in the first output, which the second
pass then renames again.) -/
theorem normalize_columns_idempotent (h : List Cell)
    (hnd : (normalize_columns h).Nodup) :
    normalize_columns ((normalize_columns h).map some) = normalize_columns h := by
  have hgood : ∀ n ∈ normalize_columns h, GoodName n :=
    dedup_out_good (goodName_cleanAll 0 h)
  show dedupNames (cleanAll 0 ((normalize_columns h).map some)) = normalize_columns h
  rw [cleanAll_map_some_fix 0 (normalize_columns h) hgood]
  exact dedupNames_of_nodup hnd

theorem normalize_columns_idempotent_witness :
    (normalize_columns [some "x", some "Company Name"]).Nodup
    ∧ normalize_columns ((normalize_columns [some "x", some "Company Name"]).map some)
      = normalize_columns [some "x", some "Company Name"] :=
  ⟨by decide, normalize_columns_idempotent [some "x", some "Company Name"] (by decide)⟩

/-- C8 counterexample: with an empty (zero-row) master carrying column `"m"`
and incoming columns `["b", "a"]`, `evolve_schema` reports the added-column
list `["b", "a"]` — in original order, not sorted — and returns the master
without adding either column. -/
theorem evolve_schema_cex :
    (evolve_schema (some ⟨["m"], []⟩)
        (some ⟨["b", "a"], [[some "1", some "2"]]⟩)).2 = ["b", "a"]
    ∧ ¬ List.Pairwise (fun a b => strLe a b = true)
        (evolve_schema (some ⟨["m"], []⟩)
          (some ⟨["b", "a"], [[some "1", some "2"]]⟩)).2
    ∧ "b" ∉ (evolve_schema (some ⟨["m"], []⟩)
        (some ⟨["b", "a"], [[some "1", some "2"]]⟩)).1.cols := by
  decide

/-- C8 amended: for a non-empty rectangular master and a non-empty incoming
record set, `evolve_schema` returns the master with exactly the genuinely
new incoming columns appended — the reported list is sorted, consists
precisely of the incoming-minus-master columns, every pre-existing row is
backfilled with a missing value in each added column, no column is removed
or renamed and no cell or row is changed; when nothing is new the master is
returned unchanged with an empty list.  (When the master is empty or
missing, the source instead returns it unchanged while reporting the whole
incoming column list unsorted, and when the incoming side is empty or
missing it returns the master unchanged with an empty list.) -/
theorem evolve_schema_spec (master incoming m' : DF) (added : List String)
    (hm : master.isEmpty = false) (hi : incoming.isEmpty = false)
    (hrect : ∀ r ∈ master.rows, r.length = master.cols.length)
    (heq : evolve_schema (some master) (some incoming) = (m', added)) :
    m'.cols = master.cols ++ added
    ∧ added.Pairwise (fun a b => strLe a b = true)
    ∧ (∀ c ∈ added, c ∈ incoming.cols ∧ c ∉ master.cols)
    ∧ (∀ c ∈ incoming.cols, c ∉ master.cols → c ∈ added)
    ∧ m'.rows.length = master.rows.length
    ∧ (∀ i j, m'.cellAtPos i j = master.cellAtPos i j)
    ∧ (∀ i, i < master.rows.length → ∀ c ∈ added, m'.cellByName i c = none)
    ∧ (added = [] → m' = master) := by
  rw [evolve_eq_main hm hi] at heq
  by_cases hni : (newColumns master.cols incoming.cols).isEmpty = true
  · rw [if_pos hni] at heq
    have hnil : newColumns master.cols incoming.cols = [] := List.isEmpty_iff.1 hni
    injection heq with h1 h2
    subst h1
    subst h2
    refine ⟨by simp, by simp, by simp, ?_, rfl, fun i j => rfl, by simp, fun _ => rfl⟩
    intro c hc1 hc2
    have : c ∈ newColumns master.cols incoming.cols := mem_newColumns.2 ⟨hc1, hc2⟩
    rw [hnil] at this
    cases this
  · rw [if_neg hni] at heq
    injection heq with h1 h2
    subst h2
    rw [addNACol_foldl] at h1
    subst h1
    have hnnil : newColumns master.cols incoming.cols ≠ [] := by
      intro h
      rw [h] at hni
      exact hni rfl
    refine ⟨rfl, ?_, ?_, ?_, by simp, ?_, ?_, fun h => absurd h hnnil⟩
    · exact pairwise_sortStrings _
    · exact fun c hc => mem_newColumns.1 hc
    · exact fun c hc1 hc2 => mem_newColumns.2 ⟨hc1, hc2⟩
    · intro i j
      unfold DF.cellAtPos
      simp only [List.getElem?_map]
      cases hr : master.rows[i]? with
      | none => rfl
      | some r =>
        simp only [Option.map_some', Option.bind_some]
        exact pad_getElem? ..
    · intro i hi' c hc
      have hcm : c ∉ master.cols := (mem_newColumns.1 hc).2
      have hmnone : master.cols.findIdx? (· == c) = none :=
        List.findIdx?_eq_none_iff.2 (fun x hx => by
          by_cases hxc : x = c
          · subst hxc
            exact absurd hx hcm
          · simp [hxc])
      obtain ⟨k, hk⟩ := findIdx?_mem_of_contains (List.elem_iff.2 hc)
      have hk' : k < (newColumns master.cols incoming.cols).length :=
        (findIdx?_getElem hk).1
      have hkfull : (master.cols ++ newColumns master.cols incoming.cols).findIdx? (· == c)
          = some (k + master.cols.length) := by
        rw [List.findIdx?_append, hmnone, hk]
        rfl
      rw [cellByName_eq_cellAtPos i hkfull]
      unfold DF.cellAtPos
      simp only [List.getElem?_map]
      cases hr : master.rows[i]? with
      | none =>
        rw [List.getElem?_eq_none_iff] at hr
        omega
      | some r =>
        have hrlen : r.length = master.cols.length := hrect r (List.getElem?_mem hr)
        simp only [Option.map_some', Option.bind_some]
        have hcell : (r ++ List.replicate (newColumns master.cols incoming.cols).length
              (none : Cell))[k + master.cols.length]?
            = some none := by
          rw [List.getElem?_append, if_neg (by omega)]
          have hidx : k + master.cols.length - r.length = k := by omega
          rw [hidx, List.getElem?_replicate, if_pos hk']
        simp [hcell]

/-- Witness for C8 (amended): a one-column master meeting incoming columns
`["b", "a"]` gains `["a", "b"]`, sorted and backfilled. -/
theorem evolve_schema_spec_witness :
    (⟨["m", "a", "b"], [[some "x", none, none]]⟩ : DF).cols
        = (⟨["m"], [[some "x"]]⟩ : DF).cols ++ ["a", "b"]
    ∧ (["a", "b"] : List String).Pairwise (fun a b => strLe a b = true)
    ∧ (∀ c ∈ (["a", "b"] : List String),
        c ∈ (⟨["b", "a"], [[some "1", some "2"]]⟩ : DF).cols
        ∧ c ∉ (⟨["m"], [[some "x"]]⟩ : DF).cols)
    ∧ (∀ c ∈ (⟨["b", "a"], [[some "1", some "2"]]⟩ : DF).cols,
        c ∉ (⟨["m"], [[some "x"]]⟩ : DF).cols → c ∈ (["a", "b"] : List String))
    ∧ (⟨["m", "a", "b"], [[some "x", none, none]]⟩ : DF).rows.length
        = (⟨["m"], [[some "x"]]⟩ : DF).rows.length
    ∧ (∀ i j, (⟨["m", "a", "b"], [[some "x", none, none]]⟩ : DF).cellAtPos i j
        = (⟨["m"], [[some "x"]]⟩ : DF).cellAtPos i j)
    ∧ (∀ i, i < (⟨["m"], [[some "x"]]⟩ : DF).rows.length →
        ∀ c ∈ (["a", "b"] : List String),
          (⟨["m", "a", "b"], [[some "x", none, none]]⟩ : DF).cellByName i c = none)
    ∧ ((["a", "b"] : List String) = []
        → (⟨["m", "a", "b"], [[some "x", none, none]]⟩ : DF) = ⟨["m"], [[some "x"]]⟩) :=
  evolve_schema_spec ⟨["m"], [[some "x"]]⟩ ⟨["b", "a"], [[some "1", some "2"]]⟩
    ⟨["m", "a", "b"], [[some "x", none, none]]⟩ ["a", "b"]
    (by decide) (by decide) (by decide) (by decide)

/-- C7 counterexample: when every encoding fails with the decode error
`"bad byte 0xDE"`, the raised decode failure's message names the file and
the cascade but does not carry the individual error text — the claim that
the raised failure lists the individual errors is false (the source only
logs them). -/
theorem read_cascade_error_detail_cex :
    read_with_encoding_cascade (fun _ => .unicodeError "bad byte 0xDE") "f.csv"
      = .error (.decodeFailure
          "All encoding attempts failed for f.csv. Tried: utf-8, utf-8-sig, cp1252, latin1")
    ∧ strOccurs
        "All encoding attempts failed for f.csv. Tried: utf-8, utf-8-sig, cp1252, latin1"
        "bad byte 0xDE" = false := by
  constructor
  · rfl
  · decide

/-- C7 (amended): the cascade tries the fixed encoding list in order and
returns the decoded text with the first encoding that decodes without
error; a permission error is propagated immediately without trying further
encodings; and when every encoding fails to decode it raises a single
aggregated decode failure whose message names the file and every encoding
of the cascade (the individual per-encoding errors are only logged, not
carried in the raised failure). -/
theorem read_cascade_spec (file : String → ReadResult) (path : String) :
    (∀ pre enc rest text, ENCODING_CASCADE = pre ++ enc :: rest →
        (∀ e ∈ pre, decodeFails (file e) = true) → file enc = .ok text →
        read_with_encoding_cascade file path = .ok (text, enc))
    ∧ (∀ pre enc rest, ENCODING_CASCADE = pre ++ enc :: rest →
        (∀ e ∈ pre, decodeFails (file e) = true) → file enc = .permissionError →
        read_with_encoding_cascade file path = .error .permission)
    ∧ ((∀ e ∈ ENCODING_CASCADE, decodeFails (file e) = true) →
        ∃ m, read_with_encoding_cascade file path = .error (.decodeFailure m)
          ∧ ∀ e ∈ ENCODING_CASCADE, strOccurs m e = true) := by
  refine ⟨?_, ?_, ?_⟩
  · intro pre enc rest text hsplit hfail hok
    unfold read_with_encoding_cascade
    rw [hsplit]
    exact cascadeLoop_first_ok file path pre enc rest text hfail hok
  · intro pre enc rest hsplit hfail hperm
    unfold read_with_encoding_cascade
    rw [hsplit]
    exact cascadeLoop_permission file path pre enc rest hfail hperm
  · intro hall
    refine ⟨"All encoding attempts failed for " ++ path ++ ". Tried: "
        ++ joinComma ENCODING_CASCADE,
      cascadeLoop_all_fail file path ENCODING_CASCADE hall, ?_⟩
    intro e he
    have hj : strOccurs (joinComma ENCODING_CASCADE) e = true := by
      simp only [ENCODING_CASCADE, List.mem_cons, List.not_mem_nil, or_false] at he
      rcases he with rfl | rfl | rfl | rfl <;> decide
    exact strOccurs_append_left _ _ _ hj

/-- Witness for C7 (amended): utf-8 fails to decode, utf-8-sig succeeds, and
the cascade returns the utf-8-sig text. -/
theorem read_cascade_spec_witness :
    read_with_encoding_cascade
      (fun e => if e == "utf-8" then .unicodeError "bad start byte" else .ok "hello")
      "survey.csv" = .ok ("hello", "utf-8-sig") :=
  (read_cascade_spec
      (fun e => if e == "utf-8" then .unicodeError "bad start byte" else .ok "hello")
      "survey.csv").1
    ["utf-8"] "utf-8-sig" ["cp1252", "latin1"] "hello" rfl
    (by
      intro e he
      simp only [List.mem_cons, List.not_mem_nil, or_false] at he
      rcases he with rfl
      decide)
    (by decide)

/-- C9: after any number of ingestion runs, the Working Dataset's column set
never shrinks from one run to the next, and the Master Archive's column set
is always a superset of the Working Dataset's. -/
theorem schema_monotonicity (dfs : List DF) (df : DF) :
    (∀ c ∈ optCols (runAll dfs).working, c ∈ optCols (runAll (dfs ++ [df])).working)
    ∧ (∀ c ∈ optCols (runAll dfs).working, c ∈ optCols (runAll dfs).master) := by
  constructor
  · intro c hc
    have hstep : runAll (dfs ++ [df]) = ingest_step (runAll dfs) df := by
      unfold runAll
      rw [List.foldl_append]
      rfl
    rw [hstep]
    rcases runAll_inv dfs with hnone | ⟨w, m, hw, hm, hne, _⟩
    · rw [hnone] at hc
      cases hc
    · rw [hw] at hc
      have hc' : c ∈ w.cols := hc
      have hmergecols : ∃ ex,
          (safe_upsert_merge (runAll dfs).working (some df) PRIMARY_KEY).1.cols
            = w.cols ++ ex := by
        rw [hw]
        exact merge_cols_extend w df PRIMARY_KEY hne
      rcases hmergecols with ⟨ex, hex⟩
      unfold ingest_step
      by_cases hdf : df.isEmpty = true
      · rw [if_pos hdf, hw]
        exact hc
      · rw [if_neg hdf]
        by_cases hmas : isMissing (runAll dfs).master = true
        · rw [if_pos hmas]
          show c ∈ (safe_upsert_merge (runAll dfs).working (some df) PRIMARY_KEY).1.cols
          rw [hex]
          exact List.mem_append_left _ hc'
        · rw [if_neg hmas]
          show c ∈ (safe_upsert_merge (runAll dfs).working (some df) PRIMARY_KEY).1.cols
          rw [hex]
          exact List.mem_append_left _ hc'
  · intro c hc
    rcases runAll_inv dfs with hnone | ⟨w, m, hw, hm, _, hsub⟩
    · rw [hnone] at hc
      cases hc
    · rw [hw] at hc
      rw [hm]
      exact hsub c hc

/-- Witness for C9: a concrete two-run trace; the first run's columns
survive the second run, and the master covers the working dataset. -/
theorem schema_monotonicity_witness :
    "company_name" ∈ optCols (runAll [⟨["company_name", "a"], [[some "A", some "1"]]⟩]).master :=
  (schema_monotonicity [⟨["company_name", "a"], [[some "A", some "1"]]⟩]
      ⟨["company_name", "b"], [[some "B", some "2"]]⟩).2 "company_name" (by decide)

